import Mathlib

/-! # Max7221Array: a pixel canvas mapped onto daisy-chained MAX7221 drivers

A shallow embedding of `src/Max7221Array.h` and `src/Max7221Array.cpp`.

* Machine integers are natural numbers; a conversion to `uint8_t` is an explicit
  `% 256`, a conversion to `uint16_t` an explicit `% 65536`.
* `displayData` is a list of bytes and every subscript `displayData[k]` is the
  checked lookup `displayData[k]?`, so an access outside the array makes the
  enclosing function return `none`.
* The calls into the Arduino core (`pinMode`, `digitalWrite`, `SPI.write16`)
  are recorded, in program order, as a list of `SpiEvent`.
* The `while (inputMask)` loop of `reverseBitOrder` takes a fuel argument that
  bounds the number of times its condition is evaluated; `none` is "out of fuel".
* The arithmetic of `float` is not embedded: `getCurrentConsumption` takes the
  type of `float` values, the conversion from `uint32_t` and the product as
  parameters.
-/

/-! ## Enumerations of `Max7221Array.h` -/

/-- The operations `pixel` supports (`enum class pixelOperation`). -/
inductive pixelOperation where
  | set
  | clear
  | toggle
  | get
  | nmbrOperations
  deriving DecidableEq

/-- The MAX7221 control registers, in the order of `enum class Max7221Register`. -/
inductive Max7221Register where
  | NoOp
  | Digit0
  | Digit1
  | Digit2
  | Digit3
  | Digit4
  | Digit5
  | Digit6
  | Digit7
  | DecodeMode
  | Intensity
  | ScanLimit
  | ShutDown
  | Unused
  | DisplayTest
  | nmbrRegisters
  deriving DecidableEq

/-- The numeric value of an enumerator, `(uint8_t)r`: no enumerator of
`Max7221Register` has an initialiser, so the value is the position in the list. -/
def Max7221Register.toNat (r : Max7221Register) : Nat := r.toCtorIdx

/-- The modes of the DisplayTest register (`enum class displayTestMode`). -/
inductive displayTestMode where
  | normalOperation
  | DisplayTestmode
  | nmbrModes
  deriving DecidableEq

/-- The numeric value `(uint8_t)m` of a `displayTestMode`. -/
def displayTestMode.toNat (m : displayTestMode) : Nat := m.toCtorIdx

/-- The modes of the ShutDown register (`enum class shutDownMode`). -/
inductive shutDownMode where
  | shutDown
  | normalOperation
  | nmbrModes
  deriving DecidableEq

/-- The numeric value `(uint8_t)m` of a `shutDownMode`. -/
def shutDownMode.toNat (m : shutDownMode) : Nat := m.toCtorIdx

/-! ## The transport -/

/-- One call into the Arduino core: `pinMode(pin, OUTPUT)`,
`digitalWrite(pin, level)` with `LOW = false` and `HIGH = true`, or
`SPI.write16(word)`. -/
inductive SpiEvent where
  | pinModeOutput (pin : Nat)
  | digitalWrite (pin : Nat) (level : Bool)
  | write16 (word : Nat)
  deriving DecidableEq

/-! ## The class -/

/-- The data members of `class Max7221Array`. `displayData` is declared with
element type `float` in the header, next to a comment that sizes it in bytes;
every use applies the integer operators `|=`, `&=`, `^=`, `&` to an element and
`getByte` returns an element as `uint8_t`, so an element is a byte here. -/
structure Max7221Array where
  devicePosition : List Nat
  deviceOrientation : List Nat
  displayData : List Nat
  deriving DecidableEq

namespace Max7221Array

/-- Which GPIO drives chip-select: `static const uint8_t csPin = 2`. -/
def csPin : Nat := 2

/-- How many devices there are horizontally: `arrayWidth = 2`. -/
def arrayWidth : Nat := 2

/-- How many devices there are vertically: `arrayHeight = 2`. -/
def arrayHeight : Nat := 2

/-- The device count: `nmbrOfDevices = arrayWidth * arrayHeight`. -/
def nmbrOfDevices : Nat := arrayWidth * arrayHeight

/-- The constructor `Max7221Array::Max7221Array()`: it sets the two device
tables and leaves `displayData` as it finds it, so the contents of the buffer
are a parameter. -/
def construct (displayData : List Nat) : Max7221Array :=
  { devicePosition := [0, 2, 3, 1], deviceOrientation := [6, 6, 5, 5], displayData := displayData }

/-- The width in pixels, `getWidth()`. -/
def getWidth : Nat := arrayWidth * 8

/-- The height in pixels, `getHeight()`. -/
def getHeight : Nat := arrayHeight * 8

/-- The bit pattern of `~m` for an `int` operand `m`, kept to the 16 bits that
every `int` has; its callers keep the low 8 bits only. -/
def intComplement (m : Nat) : Nat := 0xFFFF ^^^ m

/-- The local `address` of `pixel`: `(y / 8) * (arrayWidth * 8) + x`. -/
def address (x y : Nat) : Nat := (y / 8) * (arrayWidth * 8) + x

/-- The method `pixel(x, y, theOperation)`: the returned `bool` and the object
afterwards. `set` shares its branch with `default`. -/
def pixel (a : Max7221Array) (x y : Nat) (theOperation : pixelOperation) :
    Option (Bool × Max7221Array) :=
  if x < getWidth ∧ y < getHeight then
    match theOperation with
    | .clear => do
      let b ← a.displayData[address x y]?
      let b1 := (b &&& intComplement (0x01 <<< (y % 8))) % 256
      some (false, { a with displayData := a.displayData.set (address x y) b1 })
    | .toggle => do
      let b ← a.displayData[address x y]?
      let b1 := (b ^^^ (0x01 <<< (y % 8))) % 256
      some (decide (b1 &&& (0x01 <<< (y % 8)) ≠ 0),
        { a with displayData := a.displayData.set (address x y) b1 })
    | .get => do
      let b ← a.displayData[address x y]?
      some (decide (b &&& (0x01 <<< (y % 8)) ≠ 0), a)
    | _ => do
      let b ← a.displayData[address x y]?
      let b1 := (b ||| (0x01 <<< (y % 8))) % 256
      some (true, { a with displayData := a.displayData.set (address x y) b1 })
  else
    some (false, a)

/-- The method `clearDisplayData()`: the loop writes `0x00` to the elements
`0 .. arrayWidth * arrayHeight * 8 - 1` in turn; `i` is the loop counter and the
first argument the number of iterations left. -/
def clearDisplayDataLoop : Nat → Nat → List Nat → Option (List Nat)
  | 0, _, displayData => some displayData
  | n + 1, i, displayData =>
    if i < displayData.length then clearDisplayDataLoop n (i + 1) (displayData.set i 0x00)
    else none

/-- The method `clearDisplayData()`: the calls it makes, none, and the object
afterwards. -/
def clearDisplayData (a : Max7221Array) : Option (List SpiEvent × Max7221Array) :=
  (clearDisplayDataLoop (arrayWidth * arrayHeight * 8) 0 a.displayData).map
    fun d => ([], { a with displayData := d })

/-- The loop of `reverseBitOrder`, `while (inputMask) { ... }`. The first
argument is the fuel: the number of evaluations of the loop condition that are
allowed. Both masks are `uint8_t`. -/
def reverseBitOrderLoop (input : Nat) : Nat → Nat → Nat → Nat → Option Nat
  | 0, _, _, _ => none
  | fuel + 1, output, inputMask, outputMask =>
    if inputMask ≠ 0 then
      reverseBitOrderLoop input fuel
        (if input &&& inputMask ≠ 0 then (output ||| outputMask) % 256 else output)
        ((inputMask <<< 1) % 256) (outputMask >>> 1)
    else some output

/-- The method `reverseBitOrder(input)`, with `output = 0`, `inputMask = 0x01`
and `outputMask = 0x80` at loop entry. -/
def reverseBitOrder (input : Nat) : Option Nat :=
  reverseBitOrderLoop input 9 0 0x01 0x80

/-- The loop of `collectByte`, `for (uint8_t i = 0; i < 8; i++)`: the first
numeric argument is the number of iterations left, `8 - i`. A subscript
`offset + 7 - i` below zero is outside the array. -/
def collectByteLoop (a : Max7221Array) (offset mask : Nat) (reverse : Bool) :
    Nat → Nat → Nat → Option Nat
  | 0, _, output => some output
  | n + 1, i, output =>
    if !reverse then do
      let b ← a.displayData[offset + i]?
      collectByteLoop a offset mask reverse n (i + 1)
        (if b &&& mask ≠ 0 then (output ||| (0x01 <<< i)) % 256 else output)
    else do
      let b ← if i ≤ offset + 7 then a.displayData[offset + 7 - i]? else none
      collectByteLoop a offset mask reverse n (i + 1)
        (if b &&& mask ≠ 0 then (output ||| (0x01 <<< i)) % 256 else output)

/-- The method `collectByte(offset, digitIndex, reverse)`; `mask` is the
`uint8_t` value of `0x01 << digitIndex`. -/
def collectByte (a : Max7221Array) (offset digitIndex : Nat) (reverse : Bool) : Option Nat :=
  collectByteLoop a offset ((0x01 <<< digitIndex) % 256) reverse 8 0 0

/-- The local `xOffset` of `getByte`: `(position % arrayWidth) * 8`. -/
def xOffset (position : Nat) : Nat := (position % arrayWidth) * 8

/-- The local `yOffset` of `getByte`: `(position / arrayWidth) * 8`. -/
def yOffset (position : Nat) : Nat := (position / arrayWidth) * 8

/-- The local `ramOffset` of `getByte`: `(yOffset * arrayWidth) + (xOffset)`.
A `uint8_t` position keeps all three locals below `65536`. -/
def ramOffset (position : Nat) : Nat := (yOffset position * arrayWidth) + (xOffset position)

/-- The method `getByte(deviceIndex, digitIndex)`. A subscript
`ramOffset + 7 - digitIndex` below zero is outside the array, and the argument
`7 - digitIndex` of `collectByte` is converted to `uint8_t`. -/
def getByte (a : Max7221Array) (deviceIndex digitIndex : Nat) : Option Nat := do
  let position ← a.devicePosition[deviceIndex]?
  let orientation ← a.deviceOrientation[deviceIndex]?
  match orientation with
  | 1 =>
    if digitIndex ≤ ramOffset position + 7 then
      a.displayData[ramOffset position + 7 - digitIndex]?
    else none
  | 2 => do
    let b ← a.displayData[ramOffset position + digitIndex]?
    reverseBitOrder b
  | 3 => do
    let b ← if digitIndex ≤ ramOffset position + 7 then
        a.displayData[ramOffset position + 7 - digitIndex]?
      else none
    reverseBitOrder b
  | 4 => collectByte a (ramOffset position) digitIndex false
  | 5 => collectByte a (ramOffset position) ((7 + 256 - digitIndex) % 256) false
  | 6 => do
    let b ← collectByte a (ramOffset position) digitIndex false
    reverseBitOrder b
  | 7 => do
    let b ← collectByte a (ramOffset position) ((7 + 256 - digitIndex) % 256) false
    reverseBitOrder b
  | _ => a.displayData[ramOffset position + digitIndex]?

/-- The inner loop of `refresh`, `while (deviceIndex) { ...; deviceIndex--; }`,
for the value `deviceIndex` of the loop variable: the words it sends. -/
def refreshDevices (a : Max7221Array) (digitIndex : Nat) : Nat → Option (List SpiEvent)
  | 0 => some []
  | deviceIndex + 1 => do
    let b ← getByte a deviceIndex digitIndex
    let rest ← refreshDevices a digitIndex deviceIndex
    some (.write16 ((((Max7221Register.Digit0.toNat + digitIndex) <<< 8) ||| b) % 65536) :: rest)

/-- The outer loop of `refresh`, `for (digitIndex = 0; digitIndex < 8; digitIndex++)`:
the first argument is the number of iterations left, `8 - digitIndex`. -/
def refreshLoop (a : Max7221Array) : Nat → Nat → Option (List SpiEvent)
  | 0, _ => some []
  | n + 1, digitIndex => do
    let words ← refreshDevices a digitIndex (arrayWidth * arrayHeight)
    let rest ← refreshLoop a n (digitIndex + 1)
    some (.digitalWrite csPin false :: (words ++ .digitalWrite csPin true :: rest))

/-- The method `refresh()`: the calls it makes and the object afterwards. -/
def refresh (a : Max7221Array) : Option (List SpiEvent × Max7221Array) :=
  (refreshLoop a 8 0).map fun trace => (trace, a)

/-- The loop of `writeAllDevices`, `while (deviceIndex) { ...; deviceIndex--; }`. -/
def writeAllDevicesLoop (theRegister : Max7221Register) (theData : Nat) : Nat → List SpiEvent
  | 0 => []
  | deviceIndex + 1 =>
    .write16 (((theRegister.toNat <<< 8) ||| theData) % 65536) ::
      writeAllDevicesLoop theRegister theData deviceIndex

/-- The method `writeAllDevices(theRegister, theData)`: the calls it makes. -/
def writeAllDevices (theRegister : Max7221Register) (theData : Nat) : List SpiEvent :=
  .digitalWrite csPin false ::
    (writeAllDevicesLoop theRegister theData (arrayWidth * arrayHeight) ++
      [.digitalWrite csPin true])

/-- The inner loop of `getCurrentConsumption`, `for (uint8_t x = 0; x < 8; x++)`,
for the element `i`: the first numeric argument is the number of iterations
left, `8 - x`; `nmbrLEDsOn` is a `uint32_t`. The source has `nmbrLEDsOn++l;`,
read as `nmbrLEDsOn++;`. -/
def getCurrentConsumptionBits (a : Max7221Array) (i : Nat) : Nat → Nat → Nat → Option Nat
  | 0, _, nmbrLEDsOn => some nmbrLEDsOn
  | n + 1, x, nmbrLEDsOn => do
    let b ← a.displayData[i]?
    getCurrentConsumptionBits a i n (x + 1)
      (if b &&& (0x01 <<< x) ≠ 0 then (nmbrLEDsOn + 1) % 4294967296 else nmbrLEDsOn)

/-- The outer loop of `getCurrentConsumption`,
`for (uint8_t i = 0; i < arrayWidth * arrayHeight * 8; i++)`: the first argument
is the number of iterations left. -/
def getCurrentConsumptionLoop (a : Max7221Array) : Nat → Nat → Nat → Option Nat
  | 0, _, nmbrLEDsOn => some nmbrLEDsOn
  | n + 1, i, nmbrLEDsOn => do
    let m ← getCurrentConsumptionBits a i 8 0 nmbrLEDsOn
    getCurrentConsumptionLoop a n (i + 1) m

/-- The method `getCurrentConsumption()`: the returned value and the object
afterwards. The arithmetic of `float` is not modelled: the type `F` of `float`
values, the conversion `toFloat` of a `uint32_t` to `float`, the `float` product
`mul` and the constant `minCurrentPerLED` are parameters. -/
def getCurrentConsumption {F : Type} (toFloat : Nat → F) (mul : F → F → F)
    (minCurrentPerLED : F) (a : Max7221Array) : Option (F × Max7221Array) :=
  (getCurrentConsumptionLoop a (arrayWidth * arrayHeight * 8) 0 0).map
    fun nmbrLEDsOn => (mul (toFloat nmbrLEDsOn) minCurrentPerLED, a)

/-- The method `initialize()`, under another name because `initialize` is a
keyword: the calls it makes and the object afterwards. The commented-out SPI
set-up of the source is left out. -/
def initializeDevices (a : Max7221Array) : List SpiEvent × Max7221Array :=
  (.pinModeOutput csPin ::
    (writeAllDevices .ScanLimit 0x07 ++
      writeAllDevices .DisplayTest displayTestMode.normalOperation.toNat ++
      writeAllDevices .Intensity 0x00 ++
      writeAllDevices .ShutDown shutDownMode.normalOperation.toNat), a)

/-! ## Vocabulary of the statements -/

/-- The buffer has its declared size, `8 * arrayWidth * arrayHeight` elements. -/
def Sized (a : Max7221Array) : Prop := a.displayData.length = 8 * arrayWidth * arrayHeight

/-- Every element of the buffer is a byte. -/
def Bytes (a : Max7221Array) : Prop := ∀ b ∈ a.displayData, b < 256

/-- A canvas state: the buffer has its declared size and holds bytes. -/
def Canvas (a : Max7221Array) : Prop := Sized a ∧ Bytes a

/-- The device tables have `nmbrOfDevices` entries each and every position is
a cell of the `arrayWidth` by `arrayHeight` grid. -/
def Configured (a : Max7221Array) : Prop :=
  a.devicePosition.length = nmbrOfDevices ∧ a.deviceOrientation.length = nmbrOfDevices ∧
    ∀ p ∈ a.devicePosition, p < nmbrOfDevices

instance (a : Max7221Array) : Decidable (Sized a) := by unfold Sized; infer_instance
instance (a : Max7221Array) : Decidable (Bytes a) := by unfold Bytes; infer_instance
instance (a : Max7221Array) : Decidable (Canvas a) := by unfold Canvas; infer_instance
instance (a : Max7221Array) : Decidable (Configured a) := by unfold Configured; infer_instance

/-- Reads a trace as a sequence of framed bursts: chip-select low, words,
chip-select high. The first argument holds the words of the burst that is open,
if one is. The result is `none` when a word stands outside a burst, a burst is
opened inside another or left open, or any other call occurs. -/
def framesFrom : Option (List Nat) → List SpiEvent → Option (List (List Nat))
  | none, [] => some []
  | none, .digitalWrite pin false :: t => if pin = csPin then framesFrom (some []) t else none
  | some ws, .write16 w :: t => framesFrom (some (ws ++ [w])) t
  | some ws, .digitalWrite pin true :: t =>
    if pin = csPin then (framesFrom none t).map fun r => ws :: r else none
  | _, _ => none

/-- The framed bursts of a whole trace. -/
def frames (trace : List SpiEvent) : Option (List (List Nat)) := framesFrom none trace

/-- The words of a trace, framed or not. -/
def words : List SpiEvent → List Nat
  | [] => []
  | .write16 w :: t => w :: words t
  | _ :: t => words t

/-- The register of digit row `r`, `Digit0 .. Digit7`. -/
def digitRegister (r : Nat) : Option Max7221Register :=
  [Max7221Register.Digit0, .Digit1, .Digit2, .Digit3, .Digit4, .Digit5, .Digit6, .Digit7][r]?

/-- The eight digit bytes of a device, `getByte(deviceIndex, d)` for
`d = digitIndex, digitIndex + 1, ...`; the first argument is how many are left. -/
def digitBytesFrom (a : Max7221Array) (deviceIndex : Nat) : Nat → Nat → Option (List Nat)
  | 0, _ => some []
  | n + 1, digitIndex => do
    let b ← getByte a deviceIndex digitIndex
    let rest ← digitBytesFrom a deviceIndex n (digitIndex + 1)
    some (b :: rest)

/-- The eight digit bytes of a device, `getByte(deviceIndex, d)` for `d = 0 .. 7`. -/
def digitBytes (a : Max7221Array) (deviceIndex : Nat) : Option (List Nat) :=
  digitBytesFrom a deviceIndex 8 0

/-- One device at grid position 0 with the given orientation over the block `B`. -/
def orientedBlock (orientation : Nat) (B : List Nat) : Max7221Array :=
  { devicePosition := [0], deviceOrientation := [orientation], displayData := B }

/-- The map of an orientation: the block `B` to the eight digit bytes that
`getByte` gives a device of that orientation over `B`. -/
def transform (orientation : Nat) (B : List Nat) : Option (List Nat) :=
  digitBytes (orientedBlock orientation B) 0

/-- The block of a grid position: the eight elements of the buffer from
`ramOffset position`. -/
def deviceBlock (a : Max7221Array) (position : Nat) : List Nat :=
  (a.displayData.drop (ramOffset position)).take 8

/-- The pixel `(x, y)` that bit `bit` of digit row `digitIndex` of a device
carries: for a device of orientation 6 the bits of a row run against `x` and the
rows along `y`; otherwise, as for orientation 5, the bits run along `x` and the
rows against `y`. -/
def pixelOfBit (a : Max7221Array) (deviceIndex digitIndex bit : Nat) : Nat × Nat :=
  if a.deviceOrientation.getD deviceIndex 0 = 6 then
    (xOffset (a.devicePosition.getD deviceIndex 0) + (7 - bit),
      yOffset (a.devicePosition.getD deviceIndex 0) + digitIndex)
  else
    (xOffset (a.devicePosition.getD deviceIndex 0) + bit,
      yOffset (a.devicePosition.getD deviceIndex 0) + (7 - digitIndex))

/-- The device index, digit row and bit that carry the pixel `(x, y)`: the
device is the one whose grid position is the cell of `(x, y)`; row and bit are
read off as in `pixelOfBit`. -/
def bitOfPixel (a : Max7221Array) (x y : Nat) : Nat × Nat × Nat :=
  if a.deviceOrientation.getD (a.devicePosition.indexOf ((y / 8) * arrayWidth + x / 8)) 0 = 6 then
    (a.devicePosition.indexOf ((y / 8) * arrayWidth + x / 8), y % 8, 7 - x % 8)
  else
    (a.devicePosition.indexOf ((y / 8) * arrayWidth + x / 8), 7 - y % 8, x % 8)

/-- Bit `k` of element `i` of the buffer. -/
def bitAt (a : Max7221Array) (i k : Nat) : Bool := (a.displayData.getD i 0).testBit k

/-- The number of set bits in the whole buffer: over its
`8 * arrayWidth * arrayHeight` elements, the bits 0 to 7 that are set. -/
def setBits (a : Max7221Array) : Nat :=
  ((List.range (8 * arrayWidth * arrayHeight)).map fun i =>
    (List.range 8).countP fun k => bitAt a i k).sum

/-- Whether `pixel(x, y, get)` returns `true`. -/
def isLit (a : Max7221Array) (x y : Nat) : Bool :=
  match pixel a x y pixelOperation.get with
  | some (v, _) => v
  | none => false

/-- The number of pixels `(x, y)` of the surface, `x < getWidth` and
`y < getHeight`, for which `pixel(x, y, get)` returns `true`. -/
def litPixels (a : Max7221Array) : Nat :=
  ((List.range getHeight).map fun y => (List.range getWidth).countP fun x => isLit a x y).sum

end Max7221Array

/-! ## Bits and lists -/

namespace Max7221Array

theorem and_one_shiftLeft_ne_zero (n k : Nat) : n &&& (0x01 <<< k) ≠ 0 ↔ n.testBit k = true := by
  rw [Nat.one_shiftLeft, Nat.and_two_pow]
  cases h : n.testBit k
  · simp
  · simp

theorem testBit_mod_256 (n k : Nat) (hk : k < 8) : (n % 256).testBit k = n.testBit k := by
  have h := Nat.testBit_mod_two_pow n 8 k
  simpa [hk] using h

theorem testBit_one_shiftLeft (k j : Nat) : (0x01 <<< k).testBit j = decide (k = j) := by
  rw [Nat.one_shiftLeft, Nat.testBit_two_pow]

theorem testBit_intComplement (m k : Nat) (hk : k < 8) :
    (intComplement m).testBit k = !m.testBit k := by
  have hk16 : k < 16 := by omega
  have h : Nat.testBit 65535 k = true := by
    have h1 := @Nat.testBit_two_pow_sub_one 16 k
    simpa [hk16] using h1
  unfold intComplement
  rw [Nat.testBit_xor, h]
  simp

theorem set_lookup_self (l : List Nat) (i b : Nat) (h : l[i]? = some b) : l.set i b = l := by
  apply List.ext_getElem?
  intro j
  rw [List.getElem?_set]
  by_cases hij : i = j
  · subst hij
    have hlt : i < l.length := (List.getElem?_eq_some_iff.1 h).1
    simp [hlt, h]
  · simp [hij]

theorem toggle_back (b k : Nat) (hb : b < 256) :
    ((b ^^^ 0x01 <<< k) % 256 ^^^ 0x01 <<< k) % 256 = b := by
  apply Nat.eq_of_testBit_eq
  intro i
  by_cases hi : i < 8
  · simp [testBit_mod_256 _ _ hi, Nat.testBit_xor]
  · have h256 : (256 : Nat) = 2 ^ 8 := by norm_num
    have hbi : b.testBit i = false :=
      Nat.testBit_lt_two_pow (lt_of_lt_of_le hb (by
        rw [h256]
        exact Nat.pow_le_pow_right (by decide) (by omega)))
    rw [h256, Nat.testBit_mod_two_pow]
    simp [hi, hbi]

theorem toggle_reads (b k : Nat) (hk : k < 8) :
    decide ((b ^^^ 0x01 <<< k) % 256 &&& 0x01 <<< k ≠ 0) = !decide (b &&& 0x01 <<< k ≠ 0) := by
  simp only [and_one_shiftLeft_ne_zero, testBit_mod_256 _ _ hk, Nat.testBit_xor,
    testBit_one_shiftLeft]
  cases b.testBit k <;> simp

theorem address_lt {x y : Nat} (hx : x < 16) (hy : y < 16) : address x y < 32 := by
  unfold address arrayWidth
  omega

theorem lookup_address (a : Max7221Array) (hs : Sized a) {x y : Nat} (hx : x < 16) (hy : y < 16) :
    ∃ b, a.displayData[address x y]? = some b := by
  have h : address x y < a.displayData.length := by
    rw [hs]
    exact address_lt hx hy
  exact ⟨_, List.getElem?_eq_getElem h⟩

theorem reverseBitOrderLoop_lt (input : Nat) :
    ∀ fuel output inputMask outputMask r, output < 256 →
      reverseBitOrderLoop input fuel output inputMask outputMask = some r → r < 256 := by
  intro fuel
  induction fuel with
  | zero =>
    intro output inputMask outputMask r _ h
    simp [reverseBitOrderLoop] at h
  | succ fuel ih =>
    intro output inputMask outputMask r ho h
    rw [reverseBitOrderLoop] at h
    by_cases hm : inputMask ≠ 0
    · rw [if_pos hm] at h
      refine ih _ _ _ r ?_ h
      split
      · exact Nat.mod_lt _ (by decide)
      · exact ho
    · rw [if_neg hm] at h
      cases h
      exact ho

theorem reverseBitOrder_some (input : Nat) : ∃ r, reverseBitOrder input = some r ∧ r < 256 := by
  have h : (reverseBitOrder input).isSome = true := rfl
  obtain ⟨r, hr⟩ := Option.isSome_iff_exists.1 h
  exact ⟨r, hr, reverseBitOrderLoop_lt input 9 0 0x01 0x80 r (by decide) hr⟩

theorem ramOffset_le {p : Nat} (hp : p < nmbrOfDevices) : ramOffset p + 8 ≤ 32 := by
  unfold nmbrOfDevices arrayWidth arrayHeight at hp
  unfold ramOffset xOffset yOffset arrayWidth
  omega

theorem collectByteLoop_forward (a : Max7221Array) (offset mask : Nat) :
    ∀ n i output, i + n ≤ 8 → offset + i + n ≤ a.displayData.length →
      (∀ j, i ≤ j → output.testBit j = false) →
      ∃ r, collectByteLoop a offset mask false n i output = some r ∧
        (∀ j, j < i → r.testBit j = output.testBit j) ∧
        (∀ j b, i ≤ j → j < i + n → a.displayData[offset + j]? = some b →
          r.testBit j = decide (b &&& mask ≠ 0)) ∧
        (∀ j, i + n ≤ j → r.testBit j = false) := by
  intro n
  induction n with
  | zero =>
    intro i output _ _ hout
    refine ⟨output, by simp [collectByteLoop], fun j _ => rfl, ?_, ?_⟩
    · intro j b h1 h2
      omega
    · intro j hj
      exact hout j (by omega)
  | succ n ih =>
    intro i output hi hlen hout
    have hlt : offset + i < a.displayData.length := by omega
    have hi8 : i < 8 := by omega
    have hb : a.displayData[offset + i]? = some (a.displayData[offset + i]) :=
      List.getElem?_eq_getElem hlt
    generalize a.displayData[offset + i] = b at hb
    have hnext : ∀ j, (if b &&& mask ≠ 0 then (output ||| (0x01 <<< i)) % 256 else output).testBit j
        = if j = i then decide (b &&& mask ≠ 0) else output.testBit j := by
      intro j
      by_cases hbm : b &&& mask ≠ 0
      · rw [if_pos hbm]
        by_cases hj : j < 8
        · rw [testBit_mod_256 _ _ hj, Nat.testBit_or, testBit_one_shiftLeft]
          by_cases hji : j = i
          · simp [hji, hbm]
          · have hij : ¬ i = j := fun h => hji h.symm
            simp [hji, hij]
        · have h256 : (256 : Nat) = 2 ^ 8 := by norm_num
          have hji : ¬ j = i := by omega
          rw [h256, Nat.testBit_mod_two_pow, if_neg hji, hout j (by omega)]
          simp [hj]
      · rw [if_neg hbm]
        by_cases hji : j = i
        · rw [if_pos hji, hji, hout i (le_refl i)]
          simp [hbm]
        · rw [if_neg hji]
    obtain ⟨r, hr, h1, h2, h3⟩ := ih (i + 1)
      (if b &&& mask ≠ 0 then (output ||| (0x01 <<< i)) % 256 else output)
      (by omega) (by omega) (by
        intro j hj
        rw [hnext j, if_neg (by omega)]
        exact hout j (by omega))
    refine ⟨r, ?_, ?_, ?_, ?_⟩
    · rw [collectByteLoop]
      simp only [Bool.not_false, if_true, hb, Option.pure_def, Option.bind_eq_bind,
        Option.some_bind]
      exact hr
    · intro j hj
      rw [h1 j (by omega), hnext j, if_neg (by omega)]
    · intro j c hij hjn hc
      by_cases hji : j = i
      · subst hji
        rw [hb] at hc
        cases hc
        rw [h1 j (by omega), hnext j, if_pos rfl]
      · exact h2 j c (by omega) (by omega) hc
    · intro j hj
      exact h3 j (by omega)

theorem collectByteLoop_congr (a a' : Max7221Array) (h : a'.displayData = a.displayData)
    (offset mask : Nat) (reverse : Bool) :
    ∀ n i output, collectByteLoop a' offset mask reverse n i output
      = collectByteLoop a offset mask reverse n i output := by
  intro n
  induction n with
  | zero =>
    intro i output
    rfl
  | succ n ih =>
    intro i output
    rw [collectByteLoop, collectByteLoop, h]
    simp only [ih]

theorem collectByte_forward (a : Max7221Array) (offset digitIndex : Nat)
    (hlen : offset + 8 ≤ a.displayData.length) :
    ∃ r, collectByte a offset digitIndex false = some r ∧ r < 256 ∧
      ∀ j b, j < 8 → a.displayData[offset + j]? = some b →
        r.testBit j = decide (b &&& ((0x01 <<< digitIndex) % 256) ≠ 0) := by
  obtain ⟨r, hr, _, h2, h3⟩ := collectByteLoop_forward a offset ((0x01 <<< digitIndex) % 256)
    8 0 0 (by omega) (by omega) (by simp)
  refine ⟨r, hr, ?_, ?_⟩
  · have h := Nat.lt_pow_two_of_testBit r (n := 8) (fun j hj => h3 j (by omega))
    simpa using h
  · intro j b hj hb
    exact h2 j b (by omega) (by omega) hb

theorem mask_selects (b s : Nat) (hs : s < 8) :
    decide (b &&& ((0x01 <<< s) % 256) ≠ 0) = b.testBit s := by
  have hm : (0x01 <<< s) % 256 = 0x01 <<< s := by
    apply Nat.mod_eq_of_lt
    rw [Nat.one_shiftLeft]
    have h256 : (256 : Nat) = 2 ^ 8 := by norm_num
    rw [h256]
    exact Nat.pow_lt_pow_right (by decide) hs
  rw [hm]
  cases h : b.testBit s
  · have := (and_one_shiftLeft_ne_zero b s).not.2 (by simp [h])
    simpa using this
  · have := (and_one_shiftLeft_ne_zero b s).2 h
    simpa using this

theorem getByte_unfold (a : Max7221Array) (i d p o : Nat)
    (hp : a.devicePosition[i]? = some p) (ho : a.deviceOrientation[i]? = some o) :
    getByte a i d =
      if o = 1 then
        (if d ≤ ramOffset p + 7 then a.displayData[ramOffset p + 7 - d]? else none)
      else if o = 2 then (a.displayData[ramOffset p + d]?).bind reverseBitOrder
      else if o = 3 then
        (if d ≤ ramOffset p + 7 then a.displayData[ramOffset p + 7 - d]? else none).bind
          reverseBitOrder
      else if o = 4 then collectByte a (ramOffset p) d false
      else if o = 5 then collectByte a (ramOffset p) ((7 + 256 - d) % 256) false
      else if o = 6 then (collectByte a (ramOffset p) d false).bind reverseBitOrder
      else if o = 7 then
        (collectByte a (ramOffset p) ((7 + 256 - d) % 256) false).bind reverseBitOrder
      else a.displayData[ramOffset p + d]? := by
  unfold getByte
  simp only [hp, ho, Option.pure_def, Option.bind_eq_bind, Option.some_bind]
  split
  · simp
  · simp
  · by_cases h : d ≤ ramOffset p + 7 <;> simp [h]
  · simp
  · simp
  · simp
  · simp
  · rename_i h1 h2 h3 h4 h5 h6 h7
    have e1 : ¬ o = 1 := fun h => h1 h
    have e2 : ¬ o = 2 := fun h => h2 h
    have e3 : ¬ o = 3 := fun h => h3 h
    have e4 : ¬ o = 4 := fun h => h4 h
    have e5 : ¬ o = 5 := fun h => h5 h
    have e6 : ¬ o = 6 := fun h => h6 h
    have e7 : ¬ o = 7 := fun h => h7 h
    simp [e1, e2, e3, e4, e5, e6, e7]

theorem lookup_some (a : Max7221Array) {k : Nat} (hk : k < a.displayData.length) :
    ∃ b, a.displayData[k]? = some b ∧ (Bytes a → b < 256) :=
  ⟨_, List.getElem?_eq_getElem hk, fun hb => hb _ (List.getElem_mem hk)⟩

theorem getByte_defined (a : Max7221Array) (i d p o : Nat)
    (hp : a.devicePosition[i]? = some p) (ho : a.deviceOrientation[i]? = some o)
    (hlen : ramOffset p + 8 ≤ a.displayData.length) (hd : d < 8) :
    ∃ r, getByte a i d = some r ∧ (Bytes a → r < 256) := by
  have hd7 : d ≤ ramOffset p + 7 := by omega
  obtain ⟨b0, hb0, hb0lt⟩ := lookup_some a (k := ramOffset p + d) (by omega)
  obtain ⟨b1, hb1, hb1lt⟩ := lookup_some a (k := ramOffset p + 7 - d) (by omega)
  obtain ⟨r0, hr0, hr0lt⟩ := reverseBitOrder_some b0
  obtain ⟨r1, hr1, hr1lt⟩ := reverseBitOrder_some b1
  obtain ⟨c4, hc4, hc4lt, _⟩ := collectByte_forward a (ramOffset p) d hlen
  obtain ⟨c5, hc5, hc5lt, _⟩ := collectByte_forward a (ramOffset p) ((7 + 256 - d) % 256) hlen
  obtain ⟨r4, hr4, hr4lt⟩ := reverseBitOrder_some c4
  obtain ⟨r5, hr5, hr5lt⟩ := reverseBitOrder_some c5
  unfold getByte
  simp only [hp, ho, Option.pure_def, Option.bind_eq_bind, Option.some_bind]
  split
  · exact ⟨b1, by simp [hd7, hb1], hb1lt⟩
  · exact ⟨r0, by simp [hb0, hr0], fun _ => hr0lt⟩
  · exact ⟨r1, by simp [hd7, hb1, hr1], fun _ => hr1lt⟩
  · exact ⟨c4, by simp [hc4], fun _ => hc4lt⟩
  · exact ⟨c5, by simp [hc5], fun _ => hc5lt⟩
  · exact ⟨r4, by simp [hc4, hr4], fun _ => hr4lt⟩
  · exact ⟨r5, by simp [hc5, hr5], fun _ => hr5lt⟩
  · exact ⟨b0, by simp [hb0], hb0lt⟩

theorem getByte_some (a : Max7221Array) (hcfg : Configured a) (hs : Sized a) (i d : Nat)
    (hi : i < nmbrOfDevices) (hd : d < 8) :
    ∃ r, getByte a i d = some r ∧ (Bytes a → r < 256) := by
  obtain ⟨hpl, hol, hpos⟩ := hcfg
  have hip : i < a.devicePosition.length := by rw [hpl]; exact hi
  have hio : i < a.deviceOrientation.length := by rw [hol]; exact hi
  have hlen : ramOffset (a.devicePosition[i]) + 8 ≤ a.displayData.length := by
    rw [hs]
    exact ramOffset_le (hpos _ (List.getElem_mem hip))
  exact getByte_defined a i d _ _ (List.getElem?_eq_getElem hip) (List.getElem?_eq_getElem hio)
    hlen hd

theorem word_eq (x b : Nat) (hb : b < 256) : (x <<< 8) ||| b = 256 * x + b := by
  have h := Nat.mul_add_lt_is_or (i := 8) (b := b) (by simpa using hb) x
  rw [Nat.shiftLeft_eq, Nat.mul_comm x]
  simpa using h.symm

theorem word_parts (x b : Nat) (hx : x < 256) (hb : b < 256) :
    ((x <<< 8) ||| b) % 65536 = (x <<< 8) ||| b ∧ ((x <<< 8) ||| b) >>> 8 = x ∧
      ((x <<< 8) ||| b) % 256 = b := by
  rw [word_eq x b hb, Nat.shiftRight_eq_div_pow]
  refine ⟨?_, ?_, ?_⟩
  · omega
  · norm_num
    omega
  · omega

theorem framesFrom_words (ws : List Nat) (rest : List SpiEvent) :
    ∀ acc : List Nat,
      framesFrom (some acc) (ws.map SpiEvent.write16 ++ SpiEvent.digitalWrite csPin true :: rest)
        = (framesFrom none rest).map fun r => (acc ++ ws) :: r := by
  induction ws with
  | nil =>
    intro acc
    simp [framesFrom]
  | cons w ws ih =>
    intro acc
    simp [framesFrom, ih]

theorem words_burst (ws : List Nat) (rest : List SpiEvent) :
    words (ws.map SpiEvent.write16 ++ SpiEvent.digitalWrite csPin true :: rest)
      = ws ++ words rest := by
  induction ws with
  | nil => simp [words]
  | cons w ws ih => simp [words, ih]

theorem refreshDevices_spec (a : Max7221Array) (hcfg : Configured a) (hs : Sized a)
    (d : Nat) (hd : d < 8) :
    ∀ n, n ≤ nmbrOfDevices →
      ∃ ws : List Nat, refreshDevices a d n = some (ws.map SpiEvent.write16) ∧ ws.length = n ∧
        ∀ j, j < n → ∃ b, getByte a (n - 1 - j) d = some b ∧ (Bytes a → b < 256) ∧
          ws[j]? = some ((((Max7221Register.Digit0.toNat + d) <<< 8) ||| b) % 65536) := by
  intro n
  induction n with
  | zero =>
    intro _
    exact ⟨[], by simp [refreshDevices], rfl, fun j hj => absurd hj (Nat.not_lt_zero j)⟩
  | succ n ih =>
    intro hn
    obtain ⟨ws, hws, hlen, hj⟩ := ih (by omega)
    obtain ⟨b, hb, hblt⟩ := getByte_some a hcfg hs n d (by omega) hd
    refine ⟨((((Max7221Register.Digit0.toNat + d) <<< 8) ||| b) % 65536) :: ws, ?_, ?_, ?_⟩
    · simp [refreshDevices, hb, hws]
    · simp [hlen]
    · intro j hjn
      cases j with
      | zero => exact ⟨b, by simpa using hb, hblt, by simp⟩
      | succ j =>
        obtain ⟨c, hc, hclt, hw⟩ := hj j (by omega)
        refine ⟨c, ?_, hclt, ?_⟩
        · have he : n + 1 - 1 - (j + 1) = n - 1 - j := by omega
          rw [he]
          exact hc
        · simpa using hw

theorem refreshLoop_spec (a : Max7221Array) (hcfg : Configured a) (hs : Sized a) :
    ∀ n digitIndex, digitIndex + n ≤ 8 →
      ∃ tr bursts, refreshLoop a n digitIndex = some tr ∧ frames tr = some bursts ∧
        words tr = bursts.flatten ∧ bursts.length = n ∧
        ∀ r, r < n → ∃ burst, bursts[r]? = some burst ∧ burst.length = nmbrOfDevices ∧
          ∀ j, j < nmbrOfDevices →
            ∃ b, getByte a (nmbrOfDevices - 1 - j) (digitIndex + r) = some b ∧
              (Bytes a → b < 256) ∧
              burst[j]? =
                some ((((Max7221Register.Digit0.toNat + (digitIndex + r)) <<< 8) ||| b) % 65536) := by
  intro n
  induction n with
  | zero =>
    intro digitIndex _
    exact ⟨[], [], by simp [refreshLoop], by simp [frames, framesFrom], by simp [words], rfl,
      fun r hr => absurd hr (Nat.not_lt_zero r)⟩
  | succ n ih =>
    intro digitIndex hn
    obtain ⟨rest, bursts, hrest, hfr, hwords, hlen, hall⟩ := ih (digitIndex + 1) (by omega)
    obtain ⟨ws, hws, hwlen, hwj⟩ :=
      refreshDevices_spec a hcfg hs digitIndex (by omega) nmbrOfDevices (le_refl _)
    have hws2 : refreshDevices a digitIndex (arrayWidth * arrayHeight)
        = some (ws.map SpiEvent.write16) := hws
    refine ⟨SpiEvent.digitalWrite csPin false ::
        (ws.map SpiEvent.write16 ++ SpiEvent.digitalWrite csPin true :: rest),
      ws :: bursts, ?_, ?_, ?_, ?_, ?_⟩
    · simp [refreshLoop, hws2, hrest]
    · unfold frames at hfr ⊢
      rw [framesFrom]
      simp [framesFrom_words, hfr]
    · show words (ws.map SpiEvent.write16 ++ SpiEvent.digitalWrite csPin true :: rest) = _
      rw [words_burst, hwords]
      simp
    · simp [hlen]
    · intro r hr
      cases r with
      | zero => exact ⟨ws, by simp, hwlen, fun j hj => by simpa using hwj j hj⟩
      | succ r =>
        obtain ⟨burst, hb, hbl, hbj⟩ := hall r (by omega)
        refine ⟨burst, by simpa using hb, hbl, ?_⟩
        intro j hj
        have he : digitIndex + (r + 1) = digitIndex + 1 + r := by omega
        rw [he]
        exact hbj j hj

theorem refresh_spec (a : Max7221Array) (hcfg : Configured a) (hs : Sized a) :
    ∃ tr bursts, refresh a = some (tr, a) ∧ frames tr = some bursts ∧
      words tr = bursts.flatten ∧ bursts.length = 8 ∧
      ∀ r, r < 8 → ∃ burst, bursts[r]? = some burst ∧ burst.length = nmbrOfDevices ∧
        ∀ j, j < nmbrOfDevices →
          ∃ b, getByte a (nmbrOfDevices - 1 - j) r = some b ∧ (Bytes a → b < 256) ∧
            burst[j]? = some ((((Max7221Register.Digit0.toNat + r) <<< 8) ||| b) % 65536) := by
  obtain ⟨tr, bursts, htr, hfr, hw, hlen, hall⟩ := refreshLoop_spec a hcfg hs 8 0 (by omega)
  refine ⟨tr, bursts, by simp [refresh, htr], hfr, hw, hlen, ?_⟩
  intro r hr
  obtain ⟨burst, hb, hbl, hbj⟩ := hall r hr
  refine ⟨burst, hb, hbl, ?_⟩
  intro j hj
  simpa using hbj j hj

theorem length_flatten_const (k : Nat) :
    ∀ L : List (List Nat), (∀ l ∈ L, l.length = k) → L.flatten.length = k * L.length := by
  intro L
  induction L with
  | nil => intro _; simp
  | cons l L ih =>
    intro h
    have hl : l.length = k := h l (by simp)
    have hL : L.flatten.length = k * L.length := ih (fun m hm => h m (by simp [hm]))
    simp [hl, hL, Nat.mul_add, Nat.add_comm]

theorem digitRegister_some (r : Nat) (hr : r < 8) :
    ∃ reg, digitRegister r = some reg ∧ reg.toNat = Max7221Register.Digit0.toNat + r := by
  interval_cases r <;> exact ⟨_, rfl, rfl⟩

set_option maxRecDepth 100000 in
theorem reverseBitOrder_bits :
    ∀ b < 256, ∃ r, reverseBitOrder b = some r ∧ r < 256 ∧
      ∀ k < 8, r.testBit k = b.testBit (7 - k) := by
  decide

theorem reverseBitOrder_fuel (input : Nat) :
    reverseBitOrderLoop input 8 0 0x01 0x80 = none ∧
      (reverseBitOrderLoop input 9 0 0x01 0x80).isSome = true :=
  ⟨rfl, rfl⟩

theorem eq_of_testBit_lt_8 {m n : Nat} (hm : m < 256) (hn : n < 256)
    (h : ∀ k < 8, m.testBit k = n.testBit k) : m = n := by
  apply Nat.eq_of_testBit_eq
  intro i
  by_cases hi : i < 8
  · exact h i hi
  · have h256 : (256 : Nat) ≤ 2 ^ i := by
      have : (256 : Nat) = 2 ^ 8 := by norm_num
      rw [this]
      exact Nat.pow_le_pow_right (by decide) (by omega)
    rw [Nat.testBit_lt_two_pow (lt_of_lt_of_le hm h256),
      Nat.testBit_lt_two_pow (lt_of_lt_of_le hn h256)]

theorem clearDisplayDataLoop_spec :
    ∀ n i (displayData : List Nat), i + n ≤ displayData.length →
      ∃ r, clearDisplayDataLoop n i displayData = some r ∧ r.length = displayData.length ∧
        ∀ j, r[j]? = if i ≤ j ∧ j < i + n then some 0 else displayData[j]? := by
  intro n
  induction n with
  | zero =>
    intro i displayData _
    refine ⟨displayData, rfl, rfl, ?_⟩
    intro j
    have h : ¬(i ≤ j ∧ j < i + 0) := by omega
    rw [if_neg h]
  | succ n ih =>
    intro i displayData hlen
    have hi : i < displayData.length := by omega
    obtain ⟨r, hr, hrl, hrj⟩ := ih (i + 1) (displayData.set i 0x00)
      (by rw [List.length_set]; omega)
    refine ⟨r, ?_, ?_, ?_⟩
    · rw [clearDisplayDataLoop, if_pos hi]
      exact hr
    · rw [hrl, List.length_set]
    · intro j
      rw [hrj j, List.getElem?_set]
      by_cases h1 : i = j
      · subst h1
        have h2 : ¬(i + 1 ≤ i ∧ i < i + 1 + n) := by omega
        have h3 : i ≤ i ∧ i < i + (n + 1) := by omega
        simp [h2, h3, hi]
      · by_cases h2 : i + 1 ≤ j ∧ j < i + 1 + n
        · have h3 : i ≤ j ∧ j < i + (n + 1) := by omega
          rw [if_pos h2, if_pos h3]
        · have h3 : ¬(i ≤ j ∧ j < i + (n + 1)) := by omega
          rw [if_neg h2, if_neg h3, if_neg h1]

theorem pixel_get_of_lookup (a : Max7221Array) {x y b : Nat} (hx : x < 16) (hy : y < 16)
    (hb : a.displayData[address x y]? = some b) :
    pixel a x y pixelOperation.get = some (b.testBit (y % 8), a) := by
  have hin : x < getWidth ∧ y < getHeight := ⟨hx, hy⟩
  simp only [pixel, hin, hb]
  have h : decide (b &&& 0x01 <<< (y % 8) ≠ 0) = b.testBit (y % 8) := by
    cases hbit : b.testBit (y % 8)
    · have := (and_one_shiftLeft_ne_zero b (y % 8)).not.2 (by simp [hbit])
      simpa using this
    · have := (and_one_shiftLeft_ne_zero b (y % 8)).2 hbit
      simpa using this
  rw [← h]
  rfl

theorem register_lt (r : Max7221Register) : r.toNat < 256 := by
  cases r <;> decide

theorem address_injective {x y x' y' : Nat} (hx : x < 16) (hx' : x' < 16)
    (ha : address x y = address x' y') (hbit : y % 8 = y' % 8) : x = x' ∧ y = y' := by
  unfold address arrayWidth at ha
  omega

theorem pixel_writes (a : Max7221Array) {x y b : Nat} (op : pixelOperation) (hx : x < 16)
    (hy : y < 16) (hb : a.displayData[address x y]? = some b) :
    ∃ r b1, pixel a x y op =
        some (r, { a with displayData := a.displayData.set (address x y) b1 }) ∧
      ∀ k, k < 8 → k ≠ y % 8 → b1.testBit k = b.testBit k := by
  have hin : x < getWidth ∧ y < getHeight := ⟨hx, hy⟩
  have hk : y % 8 < 8 := Nat.mod_lt _ (by decide)
  have hset : ∃ r b1, pixel a x y pixelOperation.set =
        some (r, { a with displayData := a.displayData.set (address x y) b1 }) ∧
      ∀ k, k < 8 → k ≠ y % 8 → b1.testBit k = b.testBit k := by
    refine ⟨true, (b ||| (0x01 <<< (y % 8))) % 256, by simp only [pixel, hin, hb]; rfl, ?_⟩
    intro k hk8 hne
    have hne2 : ¬ y % 8 = k := fun h => hne h.symm
    rw [testBit_mod_256 _ _ hk8, Nat.testBit_or, testBit_one_shiftLeft]
    simp [hne2]
  cases op with
  | set => exact hset
  | nmbrOperations => exact hset
  | clear =>
    refine ⟨false, (b &&& intComplement (0x01 <<< (y % 8))) % 256,
      by simp only [pixel, hin, hb]; rfl, ?_⟩
    intro k hk8 hne
    have hne2 : ¬ y % 8 = k := fun h => hne h.symm
    rw [testBit_mod_256 _ _ hk8, Nat.testBit_and, testBit_intComplement _ _ hk8,
      testBit_one_shiftLeft]
    simp [hne2]
  | toggle =>
    refine ⟨_, (b ^^^ (0x01 <<< (y % 8))) % 256, by simp only [pixel, hin, hb]; rfl, ?_⟩
    intro k hk8 hne
    have hne2 : ¬ y % 8 = k := fun h => hne h.symm
    rw [testBit_mod_256 _ _ hk8, Nat.testBit_xor, testBit_one_shiftLeft]
    simp [hne2]
  | get =>
    refine ⟨b.testBit (y % 8), b, ?_, fun _ _ _ => rfl⟩
    rw [pixel_get_of_lookup a hx hy hb, set_lookup_self _ _ _ hb]

theorem getByte_bits_3 (a : Max7221Array) (i p d : Nat)
    (hp : a.devicePosition[i]? = some p) (ho : a.deviceOrientation[i]? = some 3)
    (hlen : ramOffset p + 8 ≤ a.displayData.length) (hbytes : Bytes a) (hd : d < 8) :
    ∃ r c, getByte a i d = some r ∧ r < 256 ∧ a.displayData[ramOffset p + (7 - d)]? = some c ∧
      ∀ k, k < 8 → r.testBit k = c.testBit (7 - k) := by
  obtain ⟨c, hc, hclt⟩ := lookup_some a (k := ramOffset p + (7 - d)) (by omega)
  obtain ⟨r, hr, hrlt, hbits⟩ := reverseBitOrder_bits c (hclt hbytes)
  have hd7 : d ≤ ramOffset p + 7 := by omega
  have hidx : ramOffset p + 7 - d = ramOffset p + (7 - d) := by omega
  refine ⟨r, c, ?_, hrlt, hc, hbits⟩
  rw [getByte_unfold a i d p 3 hp ho]
  simp [hd7, hidx, hc, hr]

theorem getByte_bits_5 (a : Max7221Array) (i p d : Nat)
    (hp : a.devicePosition[i]? = some p) (ho : a.deviceOrientation[i]? = some 5)
    (hlen : ramOffset p + 8 ≤ a.displayData.length) (hd : d < 8) :
    ∃ r, getByte a i d = some r ∧ r < 256 ∧
      ∀ k c, k < 8 → a.displayData[ramOffset p + k]? = some c →
        r.testBit k = c.testBit (7 - d) := by
  have h7 : (7 + 256 - d) % 256 = 7 - d := by omega
  obtain ⟨r, hr, hrlt, hbits⟩ := collectByte_forward a (ramOffset p) (7 - d) hlen
  refine ⟨r, ?_, hrlt, ?_⟩
  · rw [getByte_unfold a i d p 5 hp ho]
    simp [h7, hr]
  · intro k c hk hc
    rw [hbits k c hk hc, mask_selects c (7 - d) (by omega)]

theorem getByte_bits_6 (a : Max7221Array) (i p d : Nat)
    (hp : a.devicePosition[i]? = some p) (ho : a.deviceOrientation[i]? = some 6)
    (hlen : ramOffset p + 8 ≤ a.displayData.length) (hd : d < 8) :
    ∃ r, getByte a i d = some r ∧ r < 256 ∧
      ∀ k c, k < 8 → a.displayData[ramOffset p + (7 - k)]? = some c →
        r.testBit k = c.testBit d := by
  obtain ⟨q, hq, hqlt, hqbits⟩ := collectByte_forward a (ramOffset p) d hlen
  obtain ⟨r, hr, hrlt, hbits⟩ := reverseBitOrder_bits q hqlt
  refine ⟨r, ?_, hrlt, ?_⟩
  · rw [getByte_unfold a i d p 6 hp ho]
    simp [hq, hr]
  · intro k c hk hc
    rw [hbits k hk, hqbits (7 - k) c (by omega) hc, mask_selects c d hd]

theorem digitBytesFrom_spec (a : Max7221Array) (i : Nat) :
    ∀ n d0, (∀ d, d0 ≤ d → d < d0 + n → ∃ r, getByte a i d = some r) →
      ∃ L, digitBytesFrom a i n d0 = some L ∧ L.length = n ∧
        ∀ j, j < n → L[j]? = getByte a i (d0 + j) := by
  intro n
  induction n with
  | zero =>
    intro d0 _
    exact ⟨[], rfl, rfl, fun j hj => absurd hj (Nat.not_lt_zero j)⟩
  | succ n ih =>
    intro d0 h
    obtain ⟨r, hr⟩ := h d0 (le_refl _) (by omega)
    obtain ⟨L, hL, hlen, hj⟩ := ih (d0 + 1) (fun d h1 h2 => h d (by omega) (by omega))
    refine ⟨r :: L, ?_, by simp [hlen], ?_⟩
    · simp [digitBytesFrom, hr, hL]
    · intro j hjn
      cases j with
      | zero => simpa using hr.symm
      | succ j =>
        have he : d0 + (j + 1) = d0 + 1 + j := by omega
        rw [he, ← hj j (by omega)]
        simp

theorem digitBytes_spec (a : Max7221Array) (i : Nat)
    (h : ∀ d, d < 8 → ∃ r, getByte a i d = some r) :
    ∃ L, digitBytes a i = some L ∧ L.length = 8 ∧ ∀ d, d < 8 → L[d]? = getByte a i d := by
  obtain ⟨L, hL, hlen, hj⟩ := digitBytesFrom_spec a i 8 0 (fun d _ hd => h d (by omega))
  exact ⟨L, hL, hlen, fun d hd => by simpa using hj d hd⟩

theorem lookup_of_lt (L : List Nat) {j : Nat} (hj : j < L.length) : ∃ r, L[j]? = some r :=
  ⟨_, List.getElem?_eq_getElem hj⟩

theorem transform_defined (o : Nat) (B : List Nat) (P : Nat → Nat → Prop)
    (h : ∀ d, d < 8 → ∃ r, getByte (orientedBlock o B) 0 d = some r ∧ r < 256 ∧ P d r) :
    ∃ L, transform o B = some L ∧ L.length = 8 ∧ (∀ b ∈ L, b < 256) ∧
      ∀ d r, d < 8 → L[d]? = some r → P d r := by
  obtain ⟨L, hL, hlen, hget⟩ := digitBytes_spec (orientedBlock o B) 0
    (fun d hd => (h d hd).imp fun r hr => hr.1)
  refine ⟨L, hL, hlen, ?_, ?_⟩
  · intro b hb
    obtain ⟨n, hn⟩ := List.mem_iff_getElem?.1 hb
    have hn8 : n < 8 := by
      rw [← hlen]
      exact (List.getElem?_eq_some_iff.1 hn).1
    obtain ⟨r, hr, hrlt, _⟩ := h n hn8
    rw [hget n hn8, hr] at hn
    cases hn
    exact hrlt
  · intro d r hd hr
    obtain ⟨r', hr', _, hP⟩ := h d hd
    rw [hget d hd, hr'] at hr
    cases hr
    exact hP

theorem transform_3_spec (B : List Nat) (hlen : B.length = 8) (hbytes : ∀ b ∈ B, b < 256) :
    ∃ L, transform 3 B = some L ∧ L.length = 8 ∧ (∀ b ∈ L, b < 256) ∧
      ∀ d r, d < 8 → L[d]? = some r →
        ∀ k c, k < 8 → B[7 - d]? = some c → r.testBit k = c.testBit (7 - k) := by
  apply transform_defined 3 B
  intro d hd
  obtain ⟨r, c, hr, hrlt, hc, hbits⟩ := getByte_bits_3 (orientedBlock 3 B) 0 0 d rfl rfl
    (by show 0 + 8 ≤ B.length; omega) hbytes hd
  refine ⟨r, hr, hrlt, ?_⟩
  intro k c' hk hc'
  have hc0 : B[7 - d]? = some c := by simpa [orientedBlock, ramOffset, xOffset, yOffset] using hc
  rw [hc0] at hc'
  cases hc'
  exact hbits k hk

theorem transform_5_spec (B : List Nat) (hlen : B.length = 8) :
    ∃ L, transform 5 B = some L ∧ L.length = 8 ∧ (∀ b ∈ L, b < 256) ∧
      ∀ d r, d < 8 → L[d]? = some r →
        ∀ k c, k < 8 → B[k]? = some c → r.testBit k = c.testBit (7 - d) := by
  apply transform_defined 5 B
  intro d hd
  obtain ⟨r, hr, hrlt, hbits⟩ := getByte_bits_5 (orientedBlock 5 B) 0 0 d rfl rfl
    (by show 0 + 8 ≤ B.length; omega) hd
  refine ⟨r, hr, hrlt, ?_⟩
  intro k c hk hc
  exact hbits k c hk (by simpa [orientedBlock, ramOffset, xOffset, yOffset] using hc)

theorem transform_6_spec (B : List Nat) (hlen : B.length = 8) :
    ∃ L, transform 6 B = some L ∧ L.length = 8 ∧ (∀ b ∈ L, b < 256) ∧
      ∀ d r, d < 8 → L[d]? = some r →
        ∀ k c, k < 8 → B[7 - k]? = some c → r.testBit k = c.testBit d := by
  apply transform_defined 6 B
  intro d hd
  obtain ⟨r, hr, hrlt, hbits⟩ := getByte_bits_6 (orientedBlock 6 B) 0 0 d rfl rfl
    (by show 0 + 8 ≤ B.length; omega) hd
  refine ⟨r, hr, hrlt, ?_⟩
  intro k c hk hc
  exact hbits k c hk (by simpa [orientedBlock, ramOffset, xOffset, yOffset] using hc)

theorem blocks_eq_of_bits (L M : List Nat) (hL : L.length = 8) (hM : M.length = 8)
    (hLb : ∀ b ∈ L, b < 256) (hMb : ∀ b ∈ M, b < 256)
    (h : ∀ j r s, j < 8 → L[j]? = some r → M[j]? = some s →
      ∀ k, k < 8 → r.testBit k = s.testBit k) : L = M := by
  apply List.ext_getElem?
  intro j
  by_cases hj : j < 8
  · obtain ⟨r, hr⟩ := lookup_of_lt L (j := j) (by omega)
    obtain ⟨s, hs⟩ := lookup_of_lt M (j := j) (by omega)
    rw [hr, hs]
    congr 1
    exact eq_of_testBit_lt_8 (hLb r (List.getElem?_mem hr)) (hMb s (List.getElem?_mem hs))
      (h j r s hj hr hs)
  · rw [List.getElem?_eq_none (by omega), List.getElem?_eq_none (by omega)]

theorem deviceBlock_lookup (a : Max7221Array) (p k : Nat) (hk : k < 8) :
    (deviceBlock a p)[k]? = a.displayData[ramOffset p + k]? := by
  unfold deviceBlock
  rw [List.getElem?_take, if_pos hk, List.getElem?_drop]

theorem collectByteLoop_shift (a a' : Max7221Array) (offset offset' mask : Nat) :
    ∀ n i output,
      (∀ k, i ≤ k → k < i + n → a'.displayData[offset' + k]? = a.displayData[offset + k]?) →
      collectByteLoop a' offset' mask false n i output
        = collectByteLoop a offset mask false n i output := by
  intro n
  induction n with
  | zero =>
    intro i output _
    rfl
  | succ n ih =>
    intro i output h
    rw [collectByteLoop, collectByteLoop, h i (le_refl i) (by omega)]
    simp only [Bool.not_false, if_true]
    congr 1
    funext b
    exact ih (i + 1) _ (fun k h1 h2 => h k (by omega) (by omega))

theorem getByte_block (a : Max7221Array) (i p o d : Nat)
    (hp : a.devicePosition[i]? = some p) (ho : a.deviceOrientation[i]? = some o)
    (hd : d < 8) :
    getByte (orientedBlock o (deviceBlock a p)) 0 d = getByte a i d := by
  have h0 : ramOffset 0 = 0 := rfl
  have hd7 : d ≤ 7 := by omega
  have hd7' : d ≤ ramOffset p + 7 := by omega
  have hlook : ∀ k, k < 8 →
      (orientedBlock o (deviceBlock a p)).displayData[0 + k]? = a.displayData[ramOffset p + k]? := by
    intro k hk
    rw [Nat.zero_add]
    exact deviceBlock_lookup a p k hk
  have hcollect : ∀ s, collectByte (orientedBlock o (deviceBlock a p)) 0 s false
      = collectByte a (ramOffset p) s false := by
    intro s
    exact collectByteLoop_shift a _ (ramOffset p) 0 _ 8 0 0 (fun k _ hk => hlook k (by omega))
  have hl0 : (orientedBlock o (deviceBlock a p)).displayData[d]? = a.displayData[ramOffset p + d]? := by
    have h := hlook d hd
    rwa [Nat.zero_add] at h
  have hl1 : (orientedBlock o (deviceBlock a p)).displayData[7 - d]?
      = a.displayData[ramOffset p + 7 - d]? := by
    have h := hlook (7 - d) (by omega)
    rw [Nat.zero_add] at h
    rw [h]
    congr 1
    omega
  rw [getByte_unfold (orientedBlock o (deviceBlock a p)) 0 d 0 o rfl rfl,
    getByte_unfold a i d p o hp ho, h0]
  simp only [Nat.zero_add, hcollect, hl0, hl1, hd7, hd7', if_true]

theorem digitBytesFrom_congr (a a' : Max7221Array) (i i' : Nat)
    (h : ∀ d, d < 8 → getByte a' i' d = getByte a i d) :
    ∀ n d0, d0 + n ≤ 8 → digitBytesFrom a' i' n d0 = digitBytesFrom a i n d0 := by
  intro n
  induction n with
  | zero =>
    intro d0 _
    rfl
  | succ n ih =>
    intro d0 hn
    rw [digitBytesFrom, digitBytesFrom, h d0 (by omega), ih (d0 + 1) (by omega)]

theorem digitBytes_block (a : Max7221Array) (i p o : Nat)
    (hp : a.devicePosition[i]? = some p) (ho : a.deviceOrientation[i]? = some o) :
    transform o (deviceBlock a p) = digitBytes a i :=
  digitBytesFrom_congr a _ i 0 (fun d hd => getByte_block a i p o d hp ho hd) 8 0 (by omega)

theorem getByte_pixel_6 (a : Max7221Array) (i p d b : Nat) (hs : Sized a)
    (hpos : p < nmbrOfDevices) (hp : a.devicePosition[i]? = some p)
    (ho : a.deviceOrientation[i]? = some 6) (hd : d < 8) (hb : b < 8) :
    ∃ r, getByte a i d = some r ∧
      pixel a (xOffset p + (7 - b)) (yOffset p + d) pixelOperation.get
        = some (r.testBit b, a) := by
  have hle := ramOffset_le hpos
  have hlen : ramOffset p + 8 ≤ a.displayData.length := by
    rw [hs]
    exact hle
  obtain ⟨r, hr, _, hbits⟩ := getByte_bits_6 a i p d hp ho hlen hd
  obtain ⟨c, hc, _⟩ := lookup_some a (k := ramOffset p + (7 - b)) (by omega)
  have h4 : p < 4 := hpos
  have hx : xOffset p + (7 - b) < 16 := by
    unfold xOffset arrayWidth
    omega
  have hy : yOffset p + d < 16 := by
    unfold yOffset arrayWidth
    omega
  have haddr : address (xOffset p + (7 - b)) (yOffset p + d) = ramOffset p + (7 - b) := by
    unfold address ramOffset xOffset yOffset arrayWidth
    omega
  have hbit : (yOffset p + d) % 8 = d := by
    unfold yOffset arrayWidth
    omega
  refine ⟨r, hr, ?_⟩
  rw [pixel_get_of_lookup a hx hy (by rw [haddr]; exact hc), hbit, hbits b c hb hc]

theorem getByte_pixel_5 (a : Max7221Array) (i p d b : Nat) (hs : Sized a)
    (hpos : p < nmbrOfDevices) (hp : a.devicePosition[i]? = some p)
    (ho : a.deviceOrientation[i]? = some 5) (hd : d < 8) (hb : b < 8) :
    ∃ r, getByte a i d = some r ∧
      pixel a (xOffset p + b) (yOffset p + (7 - d)) pixelOperation.get
        = some (r.testBit b, a) := by
  have hle := ramOffset_le hpos
  have hlen : ramOffset p + 8 ≤ a.displayData.length := by
    rw [hs]
    exact hle
  obtain ⟨r, hr, _, hbits⟩ := getByte_bits_5 a i p d hp ho hlen hd
  obtain ⟨c, hc, _⟩ := lookup_some a (k := ramOffset p + b) (by omega)
  have h4 : p < 4 := hpos
  have hx : xOffset p + b < 16 := by
    unfold xOffset arrayWidth
    omega
  have hy : yOffset p + (7 - d) < 16 := by
    unfold yOffset arrayWidth
    omega
  have haddr : address (xOffset p + b) (yOffset p + (7 - d)) = ramOffset p + b := by
    unfold address ramOffset xOffset yOffset arrayWidth
    omega
  have hbit : (yOffset p + (7 - d)) % 8 = 7 - d := by
    unfold yOffset arrayWidth
    omega
  refine ⟨r, hr, ?_⟩
  rw [pixel_get_of_lookup a hx hy (by rw [haddr]; exact hc), hbit, hbits b c hb hc]

theorem constructed_forward :
    ∀ dev, dev < 4 → ∀ d, d < 8 → ∀ b, b < 8 →
      (pixelOfBit (construct []) dev d b).1 < 16 ∧ (pixelOfBit (construct []) dev d b).2 < 16 ∧
      bitOfPixel (construct []) (pixelOfBit (construct []) dev d b).1
        (pixelOfBit (construct []) dev d b).2 = (dev, d, b) := by
  decide

theorem constructed_block :
    ∀ dev, dev < 4 → ∀ d, d < 8 → ∀ b, b < 8 →
      8 * ((construct []).devicePosition.getD dev 0 % 2) ≤ (pixelOfBit (construct []) dev d b).1 ∧
      (pixelOfBit (construct []) dev d b).1 < 8 * ((construct []).devicePosition.getD dev 0 % 2) + 8 ∧
      8 * ((construct []).devicePosition.getD dev 0 / 2) ≤ (pixelOfBit (construct []) dev d b).2 ∧
      (pixelOfBit (construct []) dev d b).2 < 8 * ((construct []).devicePosition.getD dev 0 / 2) + 8 := by
  decide

theorem constructed_backward :
    ∀ x, x < 16 → ∀ y, y < 16 →
      (bitOfPixel (construct []) x y).1 < 4 ∧ (bitOfPixel (construct []) x y).2.1 < 8 ∧
      (bitOfPixel (construct []) x y).2.2 < 8 ∧
      pixelOfBit (construct []) (bitOfPixel (construct []) x y).1
        (bitOfPixel (construct []) x y).2.1 (bitOfPixel (construct []) x y).2.2 = (x, y) := by
  decide

theorem list_sum_range (f : Nat → Nat) (n : Nat) :
    ((List.range n).map f).sum = ∑ k ∈ Finset.range n, f k := by
  induction n with
  | zero => simp
  | succ n ih => rw [List.range_succ, List.map_append, List.sum_append, ih, Finset.sum_range_succ]; simp

theorem countP_range (p : Nat → Bool) (n : Nat) :
    (List.range n).countP p = ∑ k ∈ Finset.range n, if p k then 1 else 0 := by
  induction n with
  | zero => simp
  | succ n ih =>
    rw [List.range_succ, List.countP_append, ih, Finset.sum_range_succ]
    cases h : p n <;> simp [List.countP_cons, h]

theorem sum_range_shift (f : Nat → Nat) (x n : Nat) :
    ∑ j ∈ Finset.range (n + 1), f (x + j) = f x + ∑ j ∈ Finset.range n, f (x + 1 + j) := by
  rw [Finset.sum_range_succ', Nat.add_zero, Nat.add_comm]
  congr 1
  apply Finset.sum_congr rfl
  intro j _
  congr 1
  omega

theorem getCurrentConsumptionBits_spec (a : Max7221Array) (i b : Nat)
    (hb : a.displayData[i]? = some b) :
    ∀ n x cnt, cnt + n < 4294967296 →
      getCurrentConsumptionBits a i n x cnt
        = some (cnt + ∑ j ∈ Finset.range n, if b.testBit (x + j) then 1 else 0) := by
  intro n
  induction n with
  | zero =>
    intro x cnt _
    simp [getCurrentConsumptionBits]
  | succ n ih =>
    intro x cnt hlt
    rw [getCurrentConsumptionBits]
    simp only [hb, Option.pure_def, Option.bind_eq_bind, Option.some_bind]
    rw [sum_range_shift (fun t => if b.testBit t then 1 else 0) x n]
    cases hbit : b.testBit x
    · have h0 : ¬ (b &&& 0x01 <<< x ≠ 0) := (and_one_shiftLeft_ne_zero b x).not.2 (by simp [hbit])
      rw [if_neg h0, ih (x + 1) cnt (by omega)]
      simp
    · have h1 : b &&& 0x01 <<< x ≠ 0 := (and_one_shiftLeft_ne_zero b x).2 hbit
      rw [if_pos h1, Nat.mod_eq_of_lt (by omega), ih (x + 1) (cnt + 1) (by omega)]
      simp only [if_true, Option.some.injEq]
      omega

theorem bitAt_of_lookup (a : Max7221Array) {i b : Nat} (hb : a.displayData[i]? = some b)
    (k : Nat) : bitAt a i k = b.testBit k := by
  unfold bitAt
  rw [List.getD_eq_getElem?_getD, hb]
  rfl

theorem getCurrentConsumptionLoop_spec (a : Max7221Array) :
    ∀ n i cnt, i + n ≤ a.displayData.length → cnt + 8 * n < 4294967296 →
      getCurrentConsumptionLoop a n i cnt
        = some (cnt + ∑ j ∈ Finset.range n, ∑ k ∈ Finset.range 8,
            if bitAt a (i + j) k then 1 else 0) := by
  intro n
  induction n with
  | zero =>
    intro i cnt _ _
    simp [getCurrentConsumptionLoop]
  | succ n ih =>
    intro i cnt hlen hlt
    obtain ⟨b, hb, _⟩ := lookup_some a (k := i) (by omega)
    have hsum8 : (∑ k ∈ Finset.range 8, if b.testBit (0 + k) then 1 else 0) ≤ 8 := by
      have h := Finset.sum_le_card_nsmul (Finset.range 8)
        (fun k => if b.testBit (0 + k) then 1 else 0) 1
        (fun k _ => by dsimp only; split <;> omega)
      simpa using h
    rw [getCurrentConsumptionLoop, getCurrentConsumptionBits_spec a i b hb 8 0 cnt (by omega)]
    simp only [Option.pure_def, Option.bind_eq_bind, Option.some_bind]
    rw [ih (i + 1) _ (by omega) (by omega),
      sum_range_shift (fun t => ∑ k ∈ Finset.range 8, if bitAt a t k then 1 else 0) i n]
    simp only [Nat.zero_add, bitAt_of_lookup a hb, Option.some.injEq]
    omega

theorem setBits_eq (a : Max7221Array) :
    setBits a = ∑ i ∈ Finset.range 32, ∑ k ∈ Finset.range 8, if bitAt a i k then 1 else 0 := by
  unfold setBits
  rw [list_sum_range]
  simp only [countP_range]
  rfl

theorem isLit_eq (a : Max7221Array) (hs : Sized a) {x y : Nat} (hx : x < 16) (hy : y < 16) :
    isLit a x y = bitAt a (address x y) (y % 8) := by
  obtain ⟨b, hb⟩ := lookup_address a hs hx hy
  unfold isLit
  rw [pixel_get_of_lookup a hx hy hb, bitAt_of_lookup a hb]

theorem litPixels_eq (a : Max7221Array) (hs : Sized a) :
    litPixels a = ∑ y ∈ Finset.range 16, ∑ x ∈ Finset.range 16,
      if bitAt a (address x y) (y % 8) then 1 else 0 := by
  unfold litPixels
  rw [list_sum_range]
  simp only [countP_range]
  apply Finset.sum_congr rfl
  intro y hy
  apply Finset.sum_congr rfl
  intro x hx
  rw [isLit_eq a hs (Finset.mem_range.1 hx) (Finset.mem_range.1 hy)]

theorem sum_pixels_eq_sum_bits (g : Nat → Nat → Nat) :
    ∑ y ∈ Finset.range 16, ∑ x ∈ Finset.range 16, g (address x y) (y % 8)
      = ∑ i ∈ Finset.range 32, ∑ k ∈ Finset.range 8, g i k := by
  have h1 : ∑ y ∈ Finset.range 16, ∑ x ∈ Finset.range 16, g (address x y) (y % 8)
      = ∑ y ∈ Finset.range 8, ∑ x ∈ Finset.range 16, g (address x y) (y % 8)
        + ∑ y ∈ Finset.range 8, ∑ x ∈ Finset.range 16, g (address x (8 + y)) ((8 + y) % 8) :=
    Finset.sum_range_add (fun y => ∑ x ∈ Finset.range 16, g (address x y) (y % 8)) 8 8
  have hA : ∑ y ∈ Finset.range 8, ∑ x ∈ Finset.range 16, g (address x y) (y % 8)
      = ∑ k ∈ Finset.range 8, ∑ x ∈ Finset.range 16, g x k := by
    apply Finset.sum_congr rfl
    intro k hk
    apply Finset.sum_congr rfl
    intro x _
    have hk8 : k < 8 := Finset.mem_range.1 hk
    have ha : address x k = x := by
      unfold address arrayWidth
      omega
    rw [ha, Nat.mod_eq_of_lt hk8]
  have hB : ∑ y ∈ Finset.range 8, ∑ x ∈ Finset.range 16, g (address x (8 + y)) ((8 + y) % 8)
      = ∑ k ∈ Finset.range 8, ∑ x ∈ Finset.range 16, g (16 + x) k := by
    apply Finset.sum_congr rfl
    intro k hk
    apply Finset.sum_congr rfl
    intro x _
    have hk8 : k < 8 := Finset.mem_range.1 hk
    have ha : address x (8 + k) = 16 + x := by
      unfold address arrayWidth
      omega
    have hm : (8 + k) % 8 = k := by omega
    rw [ha, hm]
  have h2 : ∀ k, ∑ i ∈ Finset.range 32, g i k
      = ∑ x ∈ Finset.range 16, g x k + ∑ x ∈ Finset.range 16, g (16 + x) k :=
    fun k => Finset.sum_range_add (fun i => g i k) 16 16
  have hC : ∑ i ∈ Finset.range 32, ∑ k ∈ Finset.range 8, g i k
      = ∑ k ∈ Finset.range 8, ∑ i ∈ Finset.range 32, g i k := Finset.sum_comm
  rw [h1, hA, hB, hC, ← Finset.sum_add_distrib]
  exact Finset.sum_congr rfl (fun k _ => (h2 k).symm)

theorem setBits_eq_litPixels (a : Max7221Array) (hs : Sized a) : setBits a = litPixels a := by
  rw [setBits_eq, litPixels_eq a hs]
  exact (sum_pixels_eq_sum_bits (fun i k => if bitAt a i k then 1 else 0)).symm

theorem getCurrentConsumptionLoop_eq (a : Max7221Array) (hs : Sized a) :
    getCurrentConsumptionLoop a (arrayWidth * arrayHeight * 8) 0 0 = some (setBits a) := by
  have hlen : a.displayData.length = 32 := hs
  have h := getCurrentConsumptionLoop_spec a 32 0 0 (by omega) (by omega)
  simp only [Nat.zero_add] at h
  rw [setBits_eq]
  exact h

theorem setBits_cleared (a : Max7221Array) (h : a.displayData = List.replicate 32 0) :
    setBits a = 0 := by
  unfold setBits bitAt
  rw [h]
  decide

theorem constructed_getByte (displayData : List Nat) (hs : Sized (construct displayData))
    (dev d : Nat) (hdev : dev < 4) (hd : d < 8) :
    ∃ r, getByte (construct displayData) dev d = some r ∧ r < 256 ∧
      ∀ b, b < 8 →
        pixel (construct displayData) (pixelOfBit (construct displayData) dev d b).1
          (pixelOfBit (construct displayData) dev d b).2 pixelOperation.get
          = some (r.testBit b, construct displayData) := by
  have hlen : ∀ p, p < nmbrOfDevices → ramOffset p + 8 ≤ (construct displayData).displayData.length := by
    intro p hp
    rw [hs]
    exact ramOffset_le hp
  have key6 : ∀ i p, (construct displayData).devicePosition[i]? = some p →
      (construct displayData).deviceOrientation[i]? = some 6 → p < nmbrOfDevices →
      ∃ r, getByte (construct displayData) i d = some r ∧ r < 256 ∧
        ∀ b, b < 8 →
          pixel (construct displayData) (xOffset p + (7 - b)) (yOffset p + d) pixelOperation.get
            = some (r.testBit b, construct displayData) := by
    intro i p hp ho hpos
    obtain ⟨r, hr, hrlt, _⟩ := getByte_bits_6 (construct displayData) i p d hp ho (hlen p hpos) hd
    refine ⟨r, hr, hrlt, ?_⟩
    intro b hb
    obtain ⟨r', hr', hpix⟩ := getByte_pixel_6 (construct displayData) i p d b hs hpos hp ho hd hb
    rw [hr] at hr'
    cases hr'
    exact hpix
  have key5 : ∀ i p, (construct displayData).devicePosition[i]? = some p →
      (construct displayData).deviceOrientation[i]? = some 5 → p < nmbrOfDevices →
      ∃ r, getByte (construct displayData) i d = some r ∧ r < 256 ∧
        ∀ b, b < 8 →
          pixel (construct displayData) (xOffset p + b) (yOffset p + (7 - d)) pixelOperation.get
            = some (r.testBit b, construct displayData) := by
    intro i p hp ho hpos
    obtain ⟨r, hr, hrlt, _⟩ := getByte_bits_5 (construct displayData) i p d hp ho (hlen p hpos) hd
    refine ⟨r, hr, hrlt, ?_⟩
    intro b hb
    obtain ⟨r', hr', hpix⟩ := getByte_pixel_5 (construct displayData) i p d b hs hpos hp ho hd hb
    rw [hr] at hr'
    cases hr'
    exact hpix
  interval_cases dev
  · exact key6 0 0 rfl rfl (by decide)
  · exact key6 1 2 rfl rfl (by decide)
  · exact key5 2 3 rfl rfl (by decide)
  · exact key5 3 1 rfl rfl (by decide)

theorem constructed_configured (displayData : List Nat) : Configured (construct displayData) :=
  (by decide : Configured (construct []))

theorem constructed_refresh (displayData : List Nat) (hs : Sized (construct displayData)) :
    ∃ tr bursts, refresh (construct displayData) = some (tr, construct displayData) ∧
      frames tr = some bursts ∧ words tr = bursts.flatten ∧ bursts.length = 8 ∧
      (∀ burst ∈ bursts, burst.length = 4) ∧
      ∀ r j b, r < 8 → j < 4 → b < 8 →
        ∃ burst w, bursts[r]? = some burst ∧ burst[j]? = some w ∧
          w >>> 8 = Max7221Register.Digit0.toNat + r ∧
          pixel (construct displayData) (pixelOfBit (construct displayData) (3 - j) r b).1
            (pixelOfBit (construct displayData) (3 - j) r b).2 pixelOperation.get
            = some (w.testBit b, construct displayData) := by
  obtain ⟨tr, bursts, htr, hfr, hw, hlen, hall⟩ :=
    refresh_spec (construct displayData) (constructed_configured displayData) hs
  have h4 : ∀ burst ∈ bursts, burst.length = 4 := by
    intro burst hmem
    obtain ⟨n, hn⟩ := List.mem_iff_getElem?.1 hmem
    have hn8 : n < 8 := by
      rw [← hlen]
      exact (List.getElem?_eq_some_iff.1 hn).1
    obtain ⟨burst1, hb1, hl1, _⟩ := hall n hn8
    rw [hn] at hb1
    cases hb1
    exact hl1
  refine ⟨tr, bursts, htr, hfr, hw, hlen, h4, ?_⟩
  intro r j b hr hj hb
  obtain ⟨burst, hburst, _, hbj⟩ := hall r hr
  obtain ⟨byte, hg, _, hword⟩ := hbj j hj
  have hg' : getByte (construct displayData) (3 - j) r = some byte := hg
  obtain ⟨r0, hr0, hr0lt, hpix⟩ := constructed_getByte displayData hs (3 - j) r (by omega) hr
  rw [hg'] at hr0
  cases hr0
  have h0 : Max7221Register.Digit0.toNat = 1 := rfl
  obtain ⟨p1, p2, p3⟩ := word_parts (Max7221Register.Digit0.toNat + r) byte (by omega) hr0lt
  refine ⟨burst, _, hburst, hword, ?_, ?_⟩
  · rw [p1, p2]
  · have hbit : ((Max7221Register.Digit0.toNat + r) <<< 8 ||| byte).testBit b = byte.testBit b := by
      rw [← testBit_mod_256 ((Max7221Register.Digit0.toNat + r) <<< 8 ||| byte) b hb, p3]
    rw [hpix b hb, p1, hbit]

end Max7221Array

/-! ## The pixel accessor -/

namespace Max7221Array

/-- C1. Outside the 16 by 16 surface every operation of `pixel` returns `false`
and leaves the object, so the whole of `displayData`, as it was. -/
theorem pixel_out_of_bounds (a : Max7221Array) (x y : Nat) (op : pixelOperation)
    (h : 16 ≤ x ∨ 16 ≤ y) :
    getWidth = 16 ∧ getHeight = 16 ∧ pixel a x y op = some (false, a) := by
  refine ⟨rfl, rfl, ?_⟩
  have hb : ¬(x < getWidth ∧ y < getHeight) := by
    unfold getWidth getHeight arrayWidth arrayHeight
    omega
  simp [pixel, hb]

theorem pixel_out_of_bounds_witness :
    (16 ≤ 200 ∨ 16 ≤ 3) ∧
      getWidth = 16 ∧ getHeight = 16 ∧
        pixel (construct (List.replicate 32 0xA5)) 200 3 pixelOperation.toggle =
          some (false, construct (List.replicate 32 0xA5)) :=
  ⟨by decide, pixel_out_of_bounds (construct (List.replicate 32 0xA5)) 200 3 pixelOperation.toggle
    (by decide)⟩

/-- C2. On a buffer of the declared size and for `x < 16`, `y < 16`: `set` returns
`true` and a `get` that follows returns `true`; `clear` returns `false` and a `get`
that follows returns `false`. -/
theorem pixel_set_get_clear_get (a : Max7221Array) (x y : Nat) (hs : Sized a)
    (hx : x < 16) (hy : y < 16) :
    (∃ a1, pixel a x y pixelOperation.set = some (true, a1) ∧
        pixel a1 x y pixelOperation.get = some (true, a1)) ∧
      (∃ a2, pixel a x y pixelOperation.clear = some (false, a2) ∧
        pixel a2 x y pixelOperation.get = some (false, a2)) := by
  obtain ⟨b, hb⟩ := lookup_address a hs hx hy
  have hlen : address x y < a.displayData.length := by
    rw [hs]
    exact address_lt hx hy
  have hin : x < getWidth ∧ y < getHeight := ⟨hx, hy⟩
  have hk : y % 8 < 8 := Nat.mod_lt _ (by decide)
  constructor
  · refine ⟨_, by simp [pixel, hin, hb]; rfl, ?_⟩
    simp only [pixel, hin, List.getElem?_set_self hlen]
    simp [and_one_shiftLeft_ne_zero, testBit_mod_256 _ _ hk, Nat.testBit_or,
      testBit_one_shiftLeft]
  · refine ⟨_, by simp [pixel, hin, hb]; rfl, ?_⟩
    simp only [pixel, hin, List.getElem?_set_self hlen]
    simp [and_one_shiftLeft_ne_zero, testBit_mod_256 _ _ hk, Nat.testBit_and,
      testBit_intComplement _ _ hk, testBit_one_shiftLeft]

theorem pixel_set_get_clear_get_witness :
    (∃ a1, pixel (construct (List.replicate 32 0x5A)) 9 13 pixelOperation.set = some (true, a1) ∧
        pixel a1 9 13 pixelOperation.get = some (true, a1)) ∧
      (∃ a2, pixel (construct (List.replicate 32 0x5A)) 9 13 pixelOperation.clear =
          some (false, a2) ∧
        pixel a2 9 13 pixelOperation.get = some (false, a2)) :=
  pixel_set_get_clear_get (construct (List.replicate 32 0x5A)) 9 13 (by decide) (by decide)
    (by decide)

/-- C3. On a canvas and for `x < 16`, `y < 16`: with `v` the value `get` reads,
the first `toggle` returns the negation of `v`, the second returns `v`, and after
the two calls the object, so the whole of `displayData`, is what it was. -/
theorem pixel_toggle_twice (a : Max7221Array) (x y : Nat) (hc : Canvas a)
    (hx : x < 16) (hy : y < 16) :
    ∃ v a1, pixel a x y pixelOperation.get = some (v, a) ∧
      pixel a x y pixelOperation.toggle = some (!v, a1) ∧
      pixel a1 x y pixelOperation.toggle = some (v, a) := by
  obtain ⟨b, hb⟩ := lookup_address a hc.1 hx hy
  have hlen : address x y < a.displayData.length := by
    rw [hc.1]
    exact address_lt hx hy
  have hin : x < getWidth ∧ y < getHeight := ⟨hx, hy⟩
  have hk : y % 8 < 8 := Nat.mod_lt _ (by decide)
  have hb256 : b < 256 := hc.2 b (List.getElem?_mem hb)
  have hback := toggle_back b (y % 8) hb256
  have hread := toggle_reads b (y % 8) hk
  refine ⟨decide (b &&& (0x01 <<< (y % 8)) ≠ 0),
    { a with displayData := a.displayData.set (address x y) ((b ^^^ 0x01 <<< (y % 8)) % 256) },
    ?_, ?_, ?_⟩
  · simp only [pixel, hin, hb]
    rfl
  · simp only [pixel, hin, hb]
    rw [← hread]
    rfl
  · simp only [pixel, hin, List.getElem?_set_self hlen]
    simp only [List.set_set, hback, if_true, Option.pure_def, Option.bind_eq_bind,
      Option.some_bind, Option.some.injEq, Prod.mk.injEq, true_and]
    cases a
    simp only [Max7221Array.mk.injEq, true_and]
    exact set_lookup_self _ _ _ hb

theorem pixel_toggle_twice_witness :
    ∃ v a1, pixel (construct (List.replicate 32 0x5A)) 9 13 pixelOperation.get =
        some (v, construct (List.replicate 32 0x5A)) ∧
      pixel (construct (List.replicate 32 0x5A)) 9 13 pixelOperation.toggle = some (!v, a1) ∧
      pixel a1 9 13 pixelOperation.toggle = some (v, construct (List.replicate 32 0x5A)) :=
  pixel_toggle_twice (construct (List.replicate 32 0x5A)) 9 13 (by decide) (by decide)
    (by decide)

end Max7221Array

/-! ## The chain transmitter -/

namespace Max7221Array

/-- C4. On a configured 2 by 2 array with a buffer of the declared size, `refresh`
returns, leaves the object as it was, and its trace reads as exactly 8 framed
bursts of exactly 4 words each; the words of the trace are the words of the
bursts, 32 = 8 * nmbrOfDevices in all, so no word is sent outside a frame. -/
theorem refresh_frames (a : Max7221Array) (hcfg : Configured a) (hs : Sized a) :
    ∃ tr bursts, refresh a = some (tr, a) ∧ frames tr = some bursts ∧ bursts.length = 8 ∧
      (∀ burst ∈ bursts, burst.length = 4) ∧ words tr = bursts.flatten ∧
      (words tr).length = 32 ∧ 32 = 8 * nmbrOfDevices := by
  obtain ⟨tr, bursts, htr, hfr, hw, hlen, hall⟩ := refresh_spec a hcfg hs
  have h4 : ∀ burst ∈ bursts, burst.length = 4 := by
    intro burst hmem
    obtain ⟨n, hn⟩ := List.mem_iff_getElem?.1 hmem
    have hn8 : n < 8 := by
      rw [← hlen]
      exact (List.getElem?_eq_some_iff.1 hn).1
    obtain ⟨burst1, hb1, hl1, _⟩ := hall n hn8
    rw [hn] at hb1
    cases hb1
    exact hl1
  refine ⟨tr, bursts, htr, hfr, hlen, h4, hw, ?_, rfl⟩
  rw [hw, length_flatten_const 4 bursts h4, hlen]

theorem refresh_frames_witness :
    Configured (construct (List.range 32)) ∧ Sized (construct (List.range 32)) ∧
      ∃ tr bursts, refresh (construct (List.range 32)) = some (tr, construct (List.range 32)) ∧
        frames tr = some bursts ∧ bursts.length = 8 ∧
        (∀ burst ∈ bursts, burst.length = 4) ∧ words tr = bursts.flatten ∧
        (words tr).length = 32 ∧ 32 = 8 * nmbrOfDevices :=
  ⟨by decide, by decide, refresh_frames (construct (List.range 32)) (by decide) (by decide)⟩

/-- C5. On a configured 2 by 2 array holding a canvas, for every digit row `r < 8`
and every `j < 4`: word `j` of burst `r` of `refresh` is
`(reg << 8) | getByte(nmbrOfDevices - 1 - j, r)` with `reg` the value of the
register of digit `r`, which is `Digit0 + r`; its high byte is `reg` and its low
byte is the byte of `getByte`. -/
theorem refresh_words (a : Max7221Array) (hcfg : Configured a) (hc : Canvas a) (r j : Nat)
    (hr : r < 8) (hj : j < 4) :
    ∃ tr bursts burst b reg, refresh a = some (tr, a) ∧ frames tr = some bursts ∧
      bursts[r]? = some burst ∧ getByte a (nmbrOfDevices - 1 - j) r = some b ∧
      digitRegister r = some reg ∧ reg.toNat = Max7221Register.Digit0.toNat + r ∧
      burst[j]? = some ((reg.toNat <<< 8) ||| b) ∧
      ((reg.toNat <<< 8) ||| b) >>> 8 = reg.toNat ∧ ((reg.toNat <<< 8) ||| b) % 256 = b := by
  obtain ⟨tr, bursts, htr, hfr, _, _, hall⟩ := refresh_spec a hcfg hc.1
  obtain ⟨burst, hb, _, hbj⟩ := hall r hr
  obtain ⟨b, hg, hblt, hw⟩ := hbj j hj
  obtain ⟨reg, hreg, hval⟩ := digitRegister_some r hr
  have hreg256 : reg.toNat < 256 := by
    rw [hval]
    have h0 : Max7221Register.Digit0.toNat = 1 := rfl
    omega
  obtain ⟨h1, h2, h3⟩ := word_parts reg.toNat b hreg256 (hblt hc.2)
  refine ⟨tr, bursts, burst, b, reg, htr, hfr, hb, hg, hreg, hval, ?_, h2, h3⟩
  rw [hw, ← hval, h1]

theorem refresh_words_witness :
    ∃ tr bursts burst b reg, refresh (construct (List.range 32)) =
        some (tr, construct (List.range 32)) ∧ frames tr = some bursts ∧
      bursts[5]? = some burst ∧ getByte (construct (List.range 32)) (nmbrOfDevices - 1 - 2) 5 = some b ∧
      digitRegister 5 = some reg ∧ reg.toNat = Max7221Register.Digit0.toNat + 5 ∧
      burst[2]? = some ((reg.toNat <<< 8) ||| b) ∧
      ((reg.toNat <<< 8) ||| b) >>> 8 = reg.toNat ∧ ((reg.toNat <<< 8) ||| b) % 256 = b :=
  refresh_words (construct (List.range 32)) (by decide) (by decide) 5 2 (by decide) (by decide)

end Max7221Array

/-! ## The geometry mapper -/

namespace Max7221Array

/-- C6, as the claim states it, fails at grid position 2: `getByte` uses base
offset 16 there, for a device of orientation 0 it reads `displayData[16 + 0]`,
while `yOffset * arrayWidth * 8 + xOffset` is 128, outside the 32 elements. -/
theorem ramOffset_times_eight_fails :
    ramOffset 2 = 16 ∧ yOffset 2 * arrayWidth * 8 + xOffset 2 = 128 ∧
      ramOffset 2 ≠ yOffset 2 * arrayWidth * 8 + xOffset 2 ∧
      getByte { devicePosition := [0, 2, 3, 1], deviceOrientation := [0, 0, 0, 0],
                displayData := List.range 32 } 1 0 = (List.range 32)[16]? ∧
      (List.range 32)[yOffset 2 * arrayWidth * 8 + xOffset 2]? = none := by
  decide

/-- C6, amended. For a device at grid position `p` the base offset `getByte` uses
is `yOffset * arrayWidth + xOffset` with `xOffset = (p % arrayWidth) * 8` and
`yOffset = (p / arrayWidth) * 8`, that is `((p / 2) * 8) * 2 + (p % 2) * 8`; it is
the address `pixel` computes for the pixel `(xOffset, yOffset)`, and a device of
orientation 0 at `p` gets the element at that offset plus the digit row. -/
theorem ramOffset_formula (a : Max7221Array) (i p d : Nat)
    (hp : a.devicePosition[i]? = some p) (ho : a.deviceOrientation[i]? = some 0) :
    xOffset p = (p % arrayWidth) * 8 ∧ yOffset p = (p / arrayWidth) * 8 ∧
      ramOffset p = yOffset p * arrayWidth + xOffset p ∧
      ramOffset p = ((p / 2) * 8) * 2 + (p % 2) * 8 ∧
      ramOffset p = address (xOffset p) (yOffset p) ∧
      getByte a i d = a.displayData[((p / 2) * 8) * 2 + (p % 2) * 8 + d]? := by
  refine ⟨rfl, rfl, rfl, rfl, ?_, ?_⟩
  · unfold ramOffset address xOffset yOffset arrayWidth
    omega
  · simp [getByte, hp, ho, ramOffset, xOffset, yOffset, arrayWidth]

theorem ramOffset_formula_witness :
    xOffset 3 = (3 % arrayWidth) * 8 ∧ yOffset 3 = (3 / arrayWidth) * 8 ∧
      ramOffset 3 = yOffset 3 * arrayWidth + xOffset 3 ∧
      ramOffset 3 = ((3 / 2) * 8) * 2 + (3 % 2) * 8 ∧
      ramOffset 3 = address (xOffset 3) (yOffset 3) ∧
      getByte { devicePosition := [0, 2, 3, 1], deviceOrientation := [6, 6, 0, 5],
                displayData := List.range 32 } 2 4 =
        (List.range 32)[((3 / 2) * 8) * 2 + (3 % 2) * 8 + 4]? :=
  ramOffset_formula { devicePosition := [0, 2, 3, 1], deviceOrientation := [6, 6, 0, 5],
                      displayData := List.range 32 } 2 3 4 (by decide) (by decide)

/-- C7, on the code. The enumerators up to `ShutDown` have the addresses of the
chip, `NoOp = 0x0`, `Digit0 .. Digit7 = 0x1 .. 0x8`, `DecodeMode = 0x9`,
`Intensity = 0xA`, `ScanLimit = 0xB`, `ShutDown = 0xC`; `DisplayTest` follows a
single `Unused` and has the value `0xE`, not `0xF`, so a write to it sends words
with high byte `0x0E`. -/
theorem register_values :
    Max7221Register.NoOp.toNat = 0x0 ∧
      [Max7221Register.Digit0, .Digit1, .Digit2, .Digit3, .Digit4, .Digit5, .Digit6,
        .Digit7].map Max7221Register.toNat = [0x1, 0x2, 0x3, 0x4, 0x5, 0x6, 0x7, 0x8] ∧
      Max7221Register.DecodeMode.toNat = 0x9 ∧ Max7221Register.Intensity.toNat = 0xA ∧
      Max7221Register.ScanLimit.toNat = 0xB ∧ Max7221Register.ShutDown.toNat = 0xC ∧
      Max7221Register.Unused.toNat = 0xD ∧ Max7221Register.DisplayTest.toNat = 0xE ∧
      Max7221Register.DisplayTest.toNat ≠ 0xF ∧
      writeAllDevices Max7221Register.DisplayTest displayTestMode.normalOperation.toNat =
        [SpiEvent.digitalWrite csPin false, SpiEvent.write16 0x0E00, SpiEvent.write16 0x0E00,
          SpiEvent.write16 0x0E00, SpiEvent.write16 0x0E00, SpiEvent.digitalWrite csPin true] := by
  decide

/-- C8. Over one buffer of the declared size, for a grid position `p` and a digit
row `d < 8`: the byte `getByte` gives a device of orientation 3 at `p` for row `d`
is `reverseBitOrder` of the byte it gives a device of orientation 0 at `p` for row
`7 - d`; all three calls return. -/
theorem getByte_orientation_3 (a a' : Max7221Array) (i i' p d : Nat)
    (hdata : a'.displayData = a.displayData) (hs : Sized a) (hpos : p < nmbrOfDevices)
    (hp : a.devicePosition[i]? = some p) (ho : a.deviceOrientation[i]? = some 3)
    (hp' : a'.devicePosition[i']? = some p) (ho' : a'.deviceOrientation[i']? = some 0)
    (hd : d < 8) :
    ∃ b r, getByte a' i' (7 - d) = some b ∧ reverseBitOrder b = some r ∧
      getByte a i d = some r := by
  have hlen : ramOffset p + 8 ≤ a.displayData.length := by
    rw [hs]
    exact ramOffset_le hpos
  obtain ⟨b, hb, _⟩ := lookup_some a (k := ramOffset p + 7 - d) (by omega)
  obtain ⟨r, hr, _⟩ := reverseBitOrder_some b
  have hd7 : d ≤ ramOffset p + 7 := by omega
  have hidx : ramOffset p + (7 - d) = ramOffset p + 7 - d := by omega
  refine ⟨b, r, ?_, hr, ?_⟩
  · simp [getByte, hp', ho', hdata, hidx, hb]
  · simp [getByte, hp, ho, hd7, hb, hr]

theorem getByte_orientation_3_witness :
    ∃ b r, getByte { devicePosition := [2], deviceOrientation := [0],
                     displayData := List.range 32 } 0 (7 - 5) = some b ∧
      reverseBitOrder b = some r ∧
      getByte { devicePosition := [0, 2, 3, 1], deviceOrientation := [6, 3, 5, 5],
                displayData := List.range 32 } 1 5 = some r :=
  getByte_orientation_3
    { devicePosition := [0, 2, 3, 1], deviceOrientation := [6, 3, 5, 5],
      displayData := List.range 32 }
    { devicePosition := [2], deviceOrientation := [0], displayData := List.range 32 }
    1 0 2 5 (by decide) (by decide) (by decide) (by decide) (by decide) (by decide) (by decide)
    (by decide)

/-- C9. Over one buffer of the declared size, for a grid position `p`, a digit row
`d < 8` and a base orientation `o` among 0, 1, 4, 5: the byte `getByte` gives a
device of orientation `o + 2` at `p` for row `d` is `reverseBitOrder` of the byte
it gives a device of orientation `o` at `p` for the same row; all three calls
return. -/
theorem getByte_invertY (a a' : Max7221Array) (i i' p o d : Nat)
    (hdata : a'.displayData = a.displayData) (hs : Sized a) (hpos : p < nmbrOfDevices)
    (hbase : o = 0 ∨ o = 1 ∨ o = 4 ∨ o = 5)
    (hp : a.devicePosition[i]? = some p) (ho : a.deviceOrientation[i]? = some (o + 2))
    (hp' : a'.devicePosition[i']? = some p) (ho' : a'.deviceOrientation[i']? = some o)
    (hd : d < 8) :
    ∃ b r, getByte a' i' d = some b ∧ reverseBitOrder b = some r ∧
      getByte a i d = some r := by
  have hlen : ramOffset p + 8 ≤ a.displayData.length := by
    rw [hs]
    exact ramOffset_le hpos
  have hd7 : d ≤ ramOffset p + 7 := by omega
  have hcollect : ∀ s, collectByte a' (ramOffset p) s false = collectByte a (ramOffset p) s false :=
    fun s => collectByteLoop_congr a a' hdata (ramOffset p) _ false 8 0 0
  rw [getByte_unfold a i d p (o + 2) hp ho, getByte_unfold a' i' d p o hp' ho']
  rcases hbase with h | h | h | h
  · subst h
    obtain ⟨b, hb, _⟩ := lookup_some a (k := ramOffset p + d) (by omega)
    obtain ⟨r, hr, _⟩ := reverseBitOrder_some b
    exact ⟨b, r, by simp [hdata, hb], hr, by simp [hb, hr]⟩
  · subst h
    obtain ⟨b, hb, _⟩ := lookup_some a (k := ramOffset p + 7 - d) (by omega)
    obtain ⟨r, hr, _⟩ := reverseBitOrder_some b
    exact ⟨b, r, by simp [hdata, hd7, hb], hr, by simp [hd7, hb, hr]⟩
  · subst h
    obtain ⟨b, hb, _⟩ := collectByte_forward a (ramOffset p) d hlen
    obtain ⟨r, hr, _⟩ := reverseBitOrder_some b
    exact ⟨b, r, by simp [hcollect, hb], hr, by simp [hb, hr]⟩
  · subst h
    obtain ⟨b, hb, _⟩ := collectByte_forward a (ramOffset p) ((7 + 256 - d) % 256) hlen
    obtain ⟨r, hr, _⟩ := reverseBitOrder_some b
    exact ⟨b, r, by simp [hcollect, hb], hr, by simp [hb, hr]⟩

theorem getByte_invertY_witness :
    ∃ b r, getByte { devicePosition := [0], deviceOrientation := [4],
                     displayData := List.range 32 } 0 6 = some b ∧
      reverseBitOrder b = some r ∧
      getByte (construct (List.range 32)) 0 6 = some r :=
  getByte_invertY (construct (List.range 32))
    { devicePosition := [0], deviceOrientation := [4], displayData := List.range 32 }
    0 0 0 4 6 (by decide) (by decide) (by decide) (by decide) (by decide) (by decide) (by decide)
    (by decide) (by decide)

/-- C10. Over a buffer of the declared size, for a device at grid position `p`, a
digit row `d < 8` and a bit index `k < 8`, with `c` the element at
`ramOffset p + k`: for orientation 4, bit `k` of the byte of `getByte` is bit `d`
of `c`; for orientation 5 it is bit `7 - d` of `c`. And for every `offset` with
eight elements from it in the buffer and every `s < 8`, bit `k` of
`collectByte(offset, s, false)` is bit `s` of the element at `offset + k`. -/
theorem getByte_swapXY_bits (a : Max7221Array) (i p o d k offset s : Nat) (hs : Sized a)
    (hpos : p < nmbrOfDevices) (hp : a.devicePosition[i]? = some p)
    (ho : a.deviceOrientation[i]? = some o) (ho45 : o = 4 ∨ o = 5) (hd : d < 8) (hk : k < 8)
    (hoff : offset + 8 ≤ a.displayData.length) (hsel : s < 8) :
    (∃ c r, a.displayData[ramOffset p + k]? = some c ∧ getByte a i d = some r ∧
        r.testBit k = c.testBit (if o = 4 then d else 7 - d)) ∧
      ∃ e q, a.displayData[offset + k]? = some e ∧ collectByte a offset s false = some q ∧
        (q.testBit k = true ↔ e.testBit s = true) := by
  have hlen : ramOffset p + 8 ≤ a.displayData.length := by
    rw [hs]
    exact ramOffset_le hpos
  constructor
  · obtain ⟨c, hc, _⟩ := lookup_some a (k := ramOffset p + k) (by omega)
    rw [getByte_unfold a i d p o hp ho]
    rcases ho45 with h | h
    · subst h
      obtain ⟨r, hr, _, hbits⟩ := collectByte_forward a (ramOffset p) d hlen
      refine ⟨c, r, hc, by simp [hr], ?_⟩
      rw [hbits k c hk hc, mask_selects c d hd]
      simp
    · subst h
      have h7 : (7 + 256 - d) % 256 = 7 - d := by omega
      obtain ⟨r, hr, _, hbits⟩ := collectByte_forward a (ramOffset p) (7 - d) hlen
      refine ⟨c, r, hc, by simp [h7, hr], ?_⟩
      rw [hbits k c hk hc, mask_selects c (7 - d) (by omega)]
      simp
  · obtain ⟨e, he, _⟩ := lookup_some a (k := offset + k) (by omega)
    obtain ⟨q, hq, _, hbits⟩ := collectByte_forward a offset s hoff
    refine ⟨e, q, he, hq, ?_⟩
    rw [hbits k e hk he, mask_selects e s hsel]

theorem getByte_swapXY_bits_witness :
    (∃ c r, (List.range 32)[ramOffset 3 + 2]? = some c ∧
        getByte (construct (List.range 32)) 2 6 = some r ∧
        r.testBit 2 = c.testBit (if 5 = 4 then 6 else 7 - 6)) ∧
      ∃ e q, (List.range 32)[11 + 2]? = some e ∧
        collectByte (construct (List.range 32)) 11 3 false = some q ∧
        (q.testBit 2 = true ↔ e.testBit 3 = true) :=
  getByte_swapXY_bits (construct (List.range 32)) 2 3 5 6 2 11 3 (by decide) (by decide)
    (by decide) (by decide) (by decide) (by decide) (by decide) (by decide) (by decide)

/-- C11. For a device of orientation 0 at grid position `p`, with eight elements
from `ramOffset p` in the buffer, and a digit row `d < 8`: `getByte` returns the
element at `ramOffset p + d` as it is. The base offset of grid position 0 is 0,
and for a single device at position 0 with orientation 0 over any block `B`,
`getByte` is the lookup `B[d]`. -/
theorem getByte_identity (a : Max7221Array) (i p d : Nat)
    (hp : a.devicePosition[i]? = some p) (ho : a.deviceOrientation[i]? = some 0)
    (hlen : ramOffset p + 8 ≤ a.displayData.length) (hd : d < 8) :
    (∃ b, a.displayData[ramOffset p + d]? = some b ∧ getByte a i d = some b) ∧
      ramOffset 0 = 0 ∧
      ∀ B : List Nat,
        getByte { devicePosition := [0], deviceOrientation := [0], displayData := B } 0 d
          = B[d]? := by
  obtain ⟨b, hb, _⟩ := lookup_some a (k := ramOffset p + d) (by omega)
  refine ⟨⟨b, hb, ?_⟩, rfl, ?_⟩
  · rw [getByte_unfold a i d p 0 hp ho]
    simpa using hb
  · intro B
    rw [getByte_unfold { devicePosition := [0], deviceOrientation := [0], displayData := B }
      0 d 0 0 rfl rfl]
    have h0 : ramOffset 0 = 0 := rfl
    simp [h0]

theorem getByte_identity_witness :
    (∃ b, (List.range 32)[ramOffset 3 + 5]? = some b ∧
        getByte { devicePosition := [0, 2, 3, 1], deviceOrientation := [6, 6, 0, 5],
                  displayData := List.range 32 } 2 5 = some b) ∧
      ramOffset 0 = 0 ∧
      ∀ B : List Nat,
        getByte { devicePosition := [0], deviceOrientation := [0], displayData := B } 0 5
          = B[5]? :=
  getByte_identity { devicePosition := [0, 2, 3, 1], deviceOrientation := [6, 6, 0, 5],
                     displayData := List.range 32 } 2 3 5 (by decide) (by decide) (by decide)
    (by decide)

/-- C12. For every byte `b`, `reverseBitOrder` returns on `b` and returns `b` on
its result; and `reverseBitOrder(0b00000001)` is `0b10000000`. -/
theorem reverseBitOrder_involution (b : Nat) (hb : b < 256) :
    (∃ r, reverseBitOrder b = some r ∧ reverseBitOrder r = some b) ∧
      reverseBitOrder 0b00000001 = some 0b10000000 := by
  refine ⟨?_, by decide⟩
  obtain ⟨r, hr, hrlt, hbits⟩ := reverseBitOrder_bits b hb
  obtain ⟨q, hq, hqlt, hqbits⟩ := reverseBitOrder_bits r hrlt
  refine ⟨r, hr, ?_⟩
  rw [hq]
  congr 1
  apply eq_of_testBit_lt_8 hqlt hb
  intro k hk
  rw [hqbits k hk, hbits (7 - k) (by omega)]
  congr 1
  omega

theorem reverseBitOrder_involution_witness :
    (∃ r, reverseBitOrder 0x35 = some r ∧ reverseBitOrder r = some 0x35) ∧
      reverseBitOrder 0b00000001 = some 0b10000000 :=
  reverseBitOrder_involution 0x35 (by decide)

/-- C13. For every byte `b` and bit index `k < 8`, bit `k` of `reverseBitOrder(b)` is
bit `7 - k` of `b`. The loop ends after exactly 8 iterations: with 8 evaluations
of its condition it has not ended, with 9 it has; the input mask, shifted left
in `uint8_t`, is non-zero after fewer than 8 shifts and zero after 8. -/
theorem reverseBitOrder_reverses (b k : Nat) (hb : b < 256) (hk : k < 8) :
    (∃ r, reverseBitOrder b = some r ∧ r.testBit k = b.testBit (7 - k)) ∧
      reverseBitOrderLoop b 8 0 0x01 0x80 = none ∧
      (reverseBitOrderLoop b 9 0 0x01 0x80).isSome = true ∧
      (∀ j < 8, (fun inputMask => (inputMask <<< 1) % 256)^[j] 0x01 ≠ 0) ∧
      (fun inputMask => (inputMask <<< 1) % 256)^[8] 0x01 = 0 := by
  obtain ⟨r, hr, _, hbits⟩ := reverseBitOrder_bits b hb
  exact ⟨⟨r, hr, hbits k hk⟩, (reverseBitOrder_fuel b).1, (reverseBitOrder_fuel b).2,
    by decide, by decide⟩

theorem reverseBitOrder_reverses_witness :
    (∃ r, reverseBitOrder 0x35 = some r ∧ r.testBit 2 = Nat.testBit 0x35 (7 - 2)) ∧
      reverseBitOrderLoop 0x35 8 0 0x01 0x80 = none ∧
      (reverseBitOrderLoop 0x35 9 0 0x01 0x80).isSome = true ∧
      (∀ j < 8, (fun inputMask => (inputMask <<< 1) % 256)^[j] 0x01 ≠ 0) ∧
      (fun inputMask => (inputMask <<< 1) % 256)^[8] 0x01 = 0 :=
  reverseBitOrder_reverses 0x35 2 (by decide) (by decide)

end Max7221Array

/-! ## Clearing and configuring -/

namespace Max7221Array

/-- C15. On a buffer of the declared size, `clearDisplayData` returns; afterwards
each of the `arrayWidth * arrayHeight * 8 = 32` elements of `displayData` is zero,
the device tables are as before, `get` returns `false` for every `x < 16`,
`y < 16`, and the method has made no call to the transport. -/
theorem clearDisplayData_zeroes (a : Max7221Array) (hs : Sized a) :
    ∃ a0, clearDisplayData a = some ([], a0) ∧
      a0.displayData = List.replicate (arrayWidth * arrayHeight * 8) 0 ∧
      arrayWidth * arrayHeight * 8 = 32 ∧
      a0.devicePosition = a.devicePosition ∧ a0.deviceOrientation = a.deviceOrientation ∧
      (∀ k, k < 32 → a0.displayData[k]? = some 0) ∧
      ∀ x y, x < 16 → y < 16 → pixel a0 x y pixelOperation.get = some (false, a0) := by
  have hlen : a.displayData.length = 32 := hs
  obtain ⟨r, hr, hrl, hrj⟩ := clearDisplayDataLoop_spec 32 0 a.displayData (by omega)
  have hk : ∀ k, k < 32 → r[k]? = some 0 := by
    intro k hk
    rw [hrj k, if_pos (by omega)]
  have hrep : r = List.replicate 32 0 := by
    apply List.ext_getElem?
    intro j
    by_cases hj : j < 32
    · rw [hk j hj, List.getElem?_replicate, if_pos hj]
    · rw [List.getElem?_eq_none (by omega), List.getElem?_eq_none (by simp; omega)]
  refine ⟨{ a with displayData := r }, ?_, hrep, rfl, rfl, rfl, hk, ?_⟩
  · have h32 : arrayWidth * arrayHeight * 8 = 32 := rfl
    simp [clearDisplayData, h32, hr]
  · intro x y hx hy
    have h := pixel_get_of_lookup { a with displayData := r } hx hy
      (hk (address x y) (address_lt hx hy))
    simpa using h

theorem clearDisplayData_zeroes_witness :
    ∃ a0, clearDisplayData (construct (List.range 32)) = some ([], a0) ∧
      a0.displayData = List.replicate (arrayWidth * arrayHeight * 8) 0 ∧
      arrayWidth * arrayHeight * 8 = 32 ∧
      a0.devicePosition = (construct (List.range 32)).devicePosition ∧
      a0.deviceOrientation = (construct (List.range 32)).deviceOrientation ∧
      (∀ k, k < 32 → a0.displayData[k]? = some 0) ∧
      ∀ x y, x < 16 → y < 16 → pixel a0 x y pixelOperation.get = some (false, a0) :=
  clearDisplayData_zeroes (construct (List.range 32)) (by decide)

/-- C16. `initialize` leaves the object as it was; after it has set the chip-select
pin to output, its calls read as exactly four framed bursts, in this order:
ScanLimit with 0x07, DisplayTest with `normalOperation` = 0, Intensity with 0x00,
ShutDown with `normalOperation` = 1. For every register and every byte `theData`,
`writeAllDevices` makes one chip-select-bracketed frame of exactly 4 =
`nmbrOfDevices` equal words `(register << 8) | theData`, and each of the four
bursts is that frame. -/
theorem initialize_bursts (a : Max7221Array) (theRegister : Max7221Register) (theData : Nat)
    (hdata : theData < 256) :
    (∃ rest, initializeDevices a = (SpiEvent.pinModeOutput csPin :: rest, a) ∧
        rest = writeAllDevices Max7221Register.ScanLimit 0x07 ++
          writeAllDevices Max7221Register.DisplayTest 0 ++
          writeAllDevices Max7221Register.Intensity 0x00 ++
          writeAllDevices Max7221Register.ShutDown 1 ∧
        frames rest = some
          [List.replicate 4 ((Max7221Register.ScanLimit.toNat <<< 8) ||| 0x07),
           List.replicate 4 ((Max7221Register.DisplayTest.toNat <<< 8) ||| 0),
           List.replicate 4 ((Max7221Register.Intensity.toNat <<< 8) ||| 0x00),
           List.replicate 4 ((Max7221Register.ShutDown.toNat <<< 8) ||| 1)]) ∧
      displayTestMode.normalOperation.toNat = 0 ∧ shutDownMode.normalOperation.toNat = 1 ∧
      nmbrOfDevices = 4 ∧
      writeAllDevices theRegister theData =
        SpiEvent.digitalWrite csPin false ::
          ((List.replicate 4 ((theRegister.toNat <<< 8) ||| theData)).map SpiEvent.write16 ++
            [SpiEvent.digitalWrite csPin true]) ∧
      frames (writeAllDevices theRegister theData) =
        some [List.replicate 4 ((theRegister.toNat <<< 8) ||| theData)] := by
  have hw : ((theRegister.toNat <<< 8) ||| theData) % 65536
      = (theRegister.toNat <<< 8) ||| theData :=
    (word_parts theRegister.toNat theData (register_lt theRegister) hdata).1
  have hwrite : writeAllDevices theRegister theData =
      SpiEvent.digitalWrite csPin false ::
        ((List.replicate 4 ((theRegister.toNat <<< 8) ||| theData)).map SpiEvent.write16 ++
          [SpiEvent.digitalWrite csPin true]) := by
    rw [← hw]
    rfl
  refine ⟨⟨_, rfl, rfl, by decide⟩, rfl, rfl, rfl, hwrite, ?_⟩
  rw [hwrite]
  unfold frames
  rw [framesFrom]
  simp [framesFrom_words, framesFrom]

theorem initialize_bursts_witness :
    (∃ rest, initializeDevices (construct (List.range 32)) =
          (SpiEvent.pinModeOutput csPin :: rest, construct (List.range 32)) ∧
        rest = writeAllDevices Max7221Register.ScanLimit 0x07 ++
          writeAllDevices Max7221Register.DisplayTest 0 ++
          writeAllDevices Max7221Register.Intensity 0x00 ++
          writeAllDevices Max7221Register.ShutDown 1 ∧
        frames rest = some
          [List.replicate 4 ((Max7221Register.ScanLimit.toNat <<< 8) ||| 0x07),
           List.replicate 4 ((Max7221Register.DisplayTest.toNat <<< 8) ||| 0),
           List.replicate 4 ((Max7221Register.Intensity.toNat <<< 8) ||| 0x00),
           List.replicate 4 ((Max7221Register.ShutDown.toNat <<< 8) ||| 1)]) ∧
      displayTestMode.normalOperation.toNat = 0 ∧ shutDownMode.normalOperation.toNat = 1 ∧
      nmbrOfDevices = 4 ∧
      writeAllDevices Max7221Register.Intensity 0x0F =
        SpiEvent.digitalWrite csPin false ::
          ((List.replicate 4 ((Max7221Register.Intensity.toNat <<< 8) ||| 0x0F)).map
              SpiEvent.write16 ++
            [SpiEvent.digitalWrite csPin true]) ∧
      frames (writeAllDevices Max7221Register.Intensity 0x0F) =
        some [List.replicate 4 ((Max7221Register.Intensity.toNat <<< 8) ||| 0x0F)] :=
  initialize_bursts (construct (List.range 32)) Max7221Register.Intensity 0x0F (by decide)

end Max7221Array

/-! ## Frame and safety -/

namespace Max7221Array

/-- C19. On a buffer of the declared size, for `x, y, x', y' < 16` with
`(x', y')` different from `(x, y)` and every operation `op`: `pixel(x, y, op)`
returns, and `get` at `(x', y')` returns the same value before and after it;
`get` at `(x, y)` leaves the object as it was; and the two pixels differ in the
byte address `(y / 8) * 16 + x` or in the bit index `y % 8`. -/
theorem pixel_frame (a : Max7221Array) (x y x' y' : Nat) (op : pixelOperation) (hs : Sized a)
    (hx : x < 16) (hy : y < 16) (hx' : x' < 16) (hy' : y' < 16) (hne : x' ≠ x ∨ y' ≠ y) :
    (∃ r a1 v, pixel a x y op = some (r, a1) ∧
        pixel a x' y' pixelOperation.get = some (v, a) ∧
        pixel a1 x' y' pixelOperation.get = some (v, a1)) ∧
      (∃ v, pixel a x y pixelOperation.get = some (v, a)) ∧
      address x y = (y / 8) * 16 + x ∧
      (address x' y' ≠ address x y ∨ y' % 8 ≠ y % 8) := by
  obtain ⟨b, hb⟩ := lookup_address a hs hx hy
  obtain ⟨b', hb'⟩ := lookup_address a hs hx' hy'
  obtain ⟨r, b1, hop, hbits⟩ := pixel_writes a op hx hy hb
  have hlen : address x y < a.displayData.length := by
    rw [hs]
    exact address_lt hx hy
  have hinj : address x' y' ≠ address x y ∨ y' % 8 ≠ y % 8 := by
    by_cases h1 : address x' y' = address x y
    · by_cases h2 : y' % 8 = y % 8
      · have h := address_injective hx' hx h1 h2
        omega
      · exact Or.inr h2
    · exact Or.inl h1
  refine ⟨⟨r, _, b'.testBit (y' % 8), hop, pixel_get_of_lookup a hx' hy' hb', ?_⟩,
    ⟨_, pixel_get_of_lookup a hx hy hb⟩, rfl, hinj⟩
  by_cases h1 : address x' y' = address x y
  · have h2 : y' % 8 ≠ y % 8 := by
      rcases hinj with h | h
      · exact absurd h1 h
      · exact h
    have hbb : b' = b := by
      rw [h1, hb] at hb'
      exact (Option.some.inj hb').symm
    have hlook : ({ a with displayData := a.displayData.set (address x y) b1 } :
        Max7221Array).displayData[address x' y']? = some b1 := by
      rw [h1]
      exact List.getElem?_set_self hlen
    rw [pixel_get_of_lookup _ hx' hy' hlook, hbits (y' % 8) (Nat.mod_lt _ (by decide)) h2, hbb]
  · have hlook : ({ a with displayData := a.displayData.set (address x y) b1 } :
        Max7221Array).displayData[address x' y']? = some b' := by
      show (a.displayData.set (address x y) b1)[address x' y']? = some b'
      rw [List.getElem?_set_ne (fun h => h1 h.symm)]
      exact hb'
    rw [pixel_get_of_lookup _ hx' hy' hlook]

theorem pixel_frame_witness :
    (∃ r a1 v, pixel (construct (List.replicate 32 0x5A)) 9 13 pixelOperation.toggle =
          some (r, a1) ∧
        pixel (construct (List.replicate 32 0x5A)) 9 11 pixelOperation.get =
          some (v, construct (List.replicate 32 0x5A)) ∧
        pixel a1 9 11 pixelOperation.get = some (v, a1)) ∧
      (∃ v, pixel (construct (List.replicate 32 0x5A)) 9 13 pixelOperation.get =
        some (v, construct (List.replicate 32 0x5A))) ∧
      address 9 13 = (13 / 8) * 16 + 9 ∧
      (address 9 11 ≠ address 9 13 ∨ 11 % 8 ≠ 13 % 8) :=
  pixel_frame (construct (List.replicate 32 0x5A)) 9 13 9 11 pixelOperation.toggle (by decide)
    (by decide) (by decide) (by decide) (by decide) (by decide)

/-- C20. On a configured array with a buffer of the declared size: for `x, y < 16`
the address `pixel` computes is below 32, the size of `displayData`, and `pixel`
returns for every operation; for every device index `i < 4` and digit row `d < 8`
the device has a position `p`, every index `ramOffset p + k` with `k < 8` is below
32, and `getByte` and `collectByte` from `ramOffset p` return; and `refresh`
returns. No call takes the out-of-range branch of a lookup. -/
theorem no_access_out_of_range (a : Max7221Array) (hcfg : Configured a) (hs : Sized a) :
    a.displayData.length = 32 ∧
      (∀ x y, x < 16 → y < 16 →
        address x y < 32 ∧ ∀ op, (pixel a x y op).isSome = true) ∧
      (∀ i d, i < 4 → d < 8 →
        ∃ p, a.devicePosition[i]? = some p ∧ (∀ k, k < 8 → ramOffset p + k < 32) ∧
          (getByte a i d).isSome = true ∧
          ∀ s, (collectByte a (ramOffset p) s false).isSome = true) ∧
      (refresh a).isSome = true := by
  refine ⟨hs, ?_, ?_, ?_⟩
  · intro x y hx hy
    refine ⟨address_lt hx hy, ?_⟩
    intro op
    obtain ⟨b, hb⟩ := lookup_address a hs hx hy
    obtain ⟨r, b1, hop, _⟩ := pixel_writes a op hx hy hb
    rw [hop]
    rfl
  · intro i d hi hd
    have hip : i < a.devicePosition.length := by
      rw [hcfg.1]
      exact hi
    have hp4 : a.devicePosition[i] < nmbrOfDevices := hcfg.2.2 _ (List.getElem_mem hip)
    have hle := ramOffset_le hp4
    refine ⟨a.devicePosition[i], List.getElem?_eq_getElem hip, fun k hk => by omega, ?_, ?_⟩
    · obtain ⟨r, hr, _⟩ := getByte_some a hcfg hs i d hi hd
      rw [hr]
      rfl
    · intro s
      obtain ⟨q, hq, _⟩ := collectByte_forward a (ramOffset a.devicePosition[i]) s
        (by rw [hs]; exact hle)
      rw [hq]
      rfl
  · obtain ⟨tr, _, htr, _⟩ := refresh_spec a hcfg hs
    rw [htr]
    rfl

theorem no_access_out_of_range_witness :
    Configured (construct (List.range 32)) ∧ Sized (construct (List.range 32)) ∧
      (construct (List.range 32)).displayData.length = 32 ∧
      (∀ x y, x < 16 → y < 16 →
        address x y < 32 ∧ ∀ op, (pixel (construct (List.range 32)) x y op).isSome = true) ∧
      (∀ i d, i < 4 → d < 8 →
        ∃ p, (construct (List.range 32)).devicePosition[i]? = some p ∧
          (∀ k, k < 8 → ramOffset p + k < 32) ∧
          (getByte (construct (List.range 32)) i d).isSome = true ∧
          ∀ s, (collectByte (construct (List.range 32)) (ramOffset p) s false).isSome = true) ∧
      (refresh (construct (List.range 32))).isSome = true :=
  ⟨by decide, by decide,
    no_access_out_of_range (construct (List.range 32)) (by decide) (by decide)⟩

end Max7221Array

/-! ## Orientations as maps of blocks -/

namespace Max7221Array

/-- C17. For every block `B` of eight bytes and each of the quarter-turn
orientations `o` = 5 and `o` = 6: the map of `o` returns on `B`, returns on its
result, and that second result is what the map of orientation 3 returns on `B`.
The map of an orientation is what `getByte` does on a device: for a device with
position `p` and orientation `q` in any array, its eight digit bytes are the map
of `q` on the block of the eight elements from `ramOffset p`. -/
theorem quarter_turn_twice (B : List Nat) (o : Nat) (a : Max7221Array) (i p q : Nat)
    (hlen : B.length = 8) (hbytes : ∀ b ∈ B, b < 256) (ho : o = 5 ∨ o = 6)
    (hp : a.devicePosition[i]? = some p) (hq : a.deviceOrientation[i]? = some q) :
    (∃ B1 B2, transform o B = some B1 ∧ transform o B1 = some B2 ∧ transform 3 B = some B2) ∧
      digitBytes a i = transform q (deviceBlock a p) ∧
      ∀ k, k < 8 → (deviceBlock a p)[k]? = a.displayData[ramOffset p + k]? := by
  refine ⟨?_, (digitBytes_block a i p q hp hq).symm, fun k hk => deviceBlock_lookup a p k hk⟩
  obtain ⟨B3, hB3, hl3, hb3, h3⟩ := transform_3_spec B hlen hbytes
  rcases ho with h | h
  · subst h
    obtain ⟨B1, hB1, hl1, hb1, h1⟩ := transform_5_spec B hlen
    obtain ⟨B2, hB2, hl2, hb2, h2⟩ := transform_5_spec B1 hl1
    refine ⟨B1, B2, hB1, hB2, ?_⟩
    rw [hB3]
    congr 1
    apply blocks_eq_of_bits B3 B2 hl3 hl2 hb3 hb2
    intro j r s hj hr hs k hk
    obtain ⟨c, hc⟩ := lookup_of_lt B1 (j := k) (by omega)
    obtain ⟨c', hc'⟩ := lookup_of_lt B (j := 7 - j) (by omega)
    rw [h3 j r hj hr k c' hk hc', h2 j s hj hs k c hk hc,
      h1 k c hk hc (7 - j) c' (by omega) hc']
  · subst h
    obtain ⟨B1, hB1, hl1, hb1, h1⟩ := transform_6_spec B hlen
    obtain ⟨B2, hB2, hl2, hb2, h2⟩ := transform_6_spec B1 hl1
    refine ⟨B1, B2, hB1, hB2, ?_⟩
    rw [hB3]
    congr 1
    apply blocks_eq_of_bits B3 B2 hl3 hl2 hb3 hb2
    intro j r s hj hr hs k hk
    obtain ⟨c, hc⟩ := lookup_of_lt B1 (j := 7 - k) (by omega)
    obtain ⟨c', hc'⟩ := lookup_of_lt B (j := 7 - j) (by omega)
    have hc'' : B[7 - j]? = some c' := hc'
    rw [h3 j r hj hr k c' hk hc', h2 j s hj hs k c hk hc,
      h1 (7 - k) c (by omega) hc j c' hj hc'']

theorem quarter_turn_twice_witness :
    (∃ B1 B2, transform 6 [1, 2, 4, 8, 0x35, 0xC0, 0xFF, 0x81] = some B1 ∧
        transform 6 B1 = some B2 ∧ transform 3 [1, 2, 4, 8, 0x35, 0xC0, 0xFF, 0x81] = some B2) ∧
      digitBytes (construct (List.range 32)) 2 =
        transform 5 (deviceBlock (construct (List.range 32)) 3) ∧
      ∀ k, k < 8 → (deviceBlock (construct (List.range 32)) 3)[k]?
        = (construct (List.range 32)).displayData[ramOffset 3 + k]? :=
  quarter_turn_twice [1, 2, 4, 8, 0x35, 0xC0, 0xFF, 0x81] 6 (construct (List.range 32)) 2 3 5
    (by decide) (by decide) (by decide) (by decide) (by decide)

end Max7221Array

/-! ## The array as constructed -/

namespace Max7221Array

/-- C18. For the array as constructed (positions 0, 2, 3, 1, orientations 6, 6, 5, 5)
over a buffer of the declared size, `refresh` returns and its trace is 8 framed
bursts of 4 words that hold every pixel exactly once: for every burst `r < 8`,
word `j < 4` and bit `b < 8`, the word has register `Digit0 + r` in its high byte
and its bit `b` is what `get` returns at the pixel `pixelOfBit (3 - j) r b`, from
which `bitOfPixel` gives back `(3 - j, r, b)`; and every pixel `x < 16`, `y < 16`
is bit `b` of word `3 - dev` of burst `d` for `(dev, d, b) = bitOfPixel x y`.
Behind this: for every device index `dev < 4`, digit row `d < 8` and bit `b < 8`,
`getByte(dev, d)` returns and its bit `b` is what `get` returns at the pixel
`pixelOfBit dev d b`; that pixel lies in the 8 by 8 block of the device's grid
position `p`, columns from `8 * (p % 2)` and rows from `8 * (p / 2)`; and
`pixelOfBit` is a bijection from these triples onto the pixels `x < 16`,
`y < 16`, with inverse `bitOfPixel`. -/
theorem refresh_carries_every_pixel (displayData : List Nat)
    (hs : Sized (construct displayData)) :
    (∃ tr bursts, refresh (construct displayData) = some (tr, construct displayData) ∧
      frames tr = some bursts ∧ words tr = bursts.flatten ∧ bursts.length = 8 ∧
      (∀ burst ∈ bursts, burst.length = 4) ∧
      (∀ r j b, r < 8 → j < 4 → b < 8 →
        ∃ burst w, bursts[r]? = some burst ∧ burst[j]? = some w ∧
          w >>> 8 = Max7221Register.Digit0.toNat + r ∧
          pixel (construct displayData) (pixelOfBit (construct displayData) (3 - j) r b).1
            (pixelOfBit (construct displayData) (3 - j) r b).2 pixelOperation.get
            = some (w.testBit b, construct displayData) ∧
          bitOfPixel (construct displayData) (pixelOfBit (construct displayData) (3 - j) r b).1
            (pixelOfBit (construct displayData) (3 - j) r b).2 = (3 - j, r, b)) ∧
      (∀ x y, x < 16 → y < 16 →
        ∃ burst w, bursts[(bitOfPixel (construct displayData) x y).2.1]? = some burst ∧
          burst[3 - (bitOfPixel (construct displayData) x y).1]? = some w ∧
          pixel (construct displayData) x y pixelOperation.get
            = some (w.testBit (bitOfPixel (construct displayData) x y).2.2,
                construct displayData))) ∧
      (∀ dev d b, dev < 4 → d < 8 → b < 8 →
        ∃ r, getByte (construct displayData) dev d = some r ∧
          pixel (construct displayData) (pixelOfBit (construct displayData) dev d b).1
            (pixelOfBit (construct displayData) dev d b).2 pixelOperation.get
            = some (r.testBit b, construct displayData)) ∧
      (∀ dev d b, dev < 4 → d < 8 → b < 8 →
        (pixelOfBit (construct displayData) dev d b).1 < 16 ∧
        (pixelOfBit (construct displayData) dev d b).2 < 16 ∧
        bitOfPixel (construct displayData) (pixelOfBit (construct displayData) dev d b).1
          (pixelOfBit (construct displayData) dev d b).2 = (dev, d, b)) ∧
      (∀ dev d b, dev < 4 → d < 8 → b < 8 →
        8 * ((construct displayData).devicePosition.getD dev 0 % 2)
          ≤ (pixelOfBit (construct displayData) dev d b).1 ∧
        (pixelOfBit (construct displayData) dev d b).1
          < 8 * ((construct displayData).devicePosition.getD dev 0 % 2) + 8 ∧
        8 * ((construct displayData).devicePosition.getD dev 0 / 2)
          ≤ (pixelOfBit (construct displayData) dev d b).2 ∧
        (pixelOfBit (construct displayData) dev d b).2
          < 8 * ((construct displayData).devicePosition.getD dev 0 / 2) + 8) ∧
      (∀ x y, x < 16 → y < 16 →
        (bitOfPixel (construct displayData) x y).1 < 4 ∧
        (bitOfPixel (construct displayData) x y).2.1 < 8 ∧
        (bitOfPixel (construct displayData) x y).2.2 < 8 ∧
        pixelOfBit (construct displayData) (bitOfPixel (construct displayData) x y).1
          (bitOfPixel (construct displayData) x y).2.1
          (bitOfPixel (construct displayData) x y).2.2 = (x, y)) := by
  have hfwd : ∀ dev d b, dev < 4 → d < 8 → b < 8 →
      (pixelOfBit (construct displayData) dev d b).1 < 16 ∧
      (pixelOfBit (construct displayData) dev d b).2 < 16 ∧
      bitOfPixel (construct displayData) (pixelOfBit (construct displayData) dev d b).1
        (pixelOfBit (construct displayData) dev d b).2 = (dev, d, b) :=
    fun dev d b h1 h2 h3 => constructed_forward dev h1 d h2 b h3
  have hbwd : ∀ x y, x < 16 → y < 16 →
      (bitOfPixel (construct displayData) x y).1 < 4 ∧
      (bitOfPixel (construct displayData) x y).2.1 < 8 ∧
      (bitOfPixel (construct displayData) x y).2.2 < 8 ∧
      pixelOfBit (construct displayData) (bitOfPixel (construct displayData) x y).1
        (bitOfPixel (construct displayData) x y).2.1
        (bitOfPixel (construct displayData) x y).2.2 = (x, y) :=
    fun x y h1 h2 => constructed_backward x h1 y h2
  refine ⟨?_, ?_, hfwd, fun dev d b h1 h2 h3 => constructed_block dev h1 d h2 b h3, hbwd⟩
  · obtain ⟨tr, bursts, htr, hfr, hw, hlen, h4, hbits⟩ := constructed_refresh displayData hs
    refine ⟨tr, bursts, htr, hfr, hw, hlen, h4, ?_, ?_⟩
    · intro r j b hr hj hb
      obtain ⟨burst, w, h1, h2, h3, h5⟩ := hbits r j b hr hj hb
      exact ⟨burst, w, h1, h2, h3, h5, (hfwd (3 - j) r b (by omega) hr hb).2.2⟩
    · intro x y hx hy
      obtain ⟨t1, t2, t3, tinv⟩ := hbwd x y hx hy
      obtain ⟨burst, w, h1, h2, _, h5⟩ := hbits (bitOfPixel (construct displayData) x y).2.1
        (3 - (bitOfPixel (construct displayData) x y).1)
        (bitOfPixel (construct displayData) x y).2.2 t2 (by omega) t3
      have e : 3 - (3 - (bitOfPixel (construct displayData) x y).1)
          = (bitOfPixel (construct displayData) x y).1 := by omega
      rw [e, tinv] at h5
      exact ⟨burst, w, h1, h2, h5⟩
  · intro dev d b hdev hd hb
    obtain ⟨r, hr, _, hpix⟩ := constructed_getByte displayData hs dev d hdev hd
    exact ⟨r, hr, hpix b hb⟩

theorem refresh_carries_every_pixel_witness :
    Sized (construct (List.range 32)) ∧
      (∃ tr bursts, refresh (construct (List.range 32)) = some (tr, construct (List.range 32)) ∧
        frames tr = some bursts ∧
        ∃ burst w, bursts[3]? = some burst ∧ burst[2]? = some w ∧
          w >>> 8 = Max7221Register.Digit0.toNat + 3 ∧
          pixel (construct (List.range 32)) (pixelOfBit (construct (List.range 32)) (3 - 2) 3 5).1
            (pixelOfBit (construct (List.range 32)) (3 - 2) 3 5).2 pixelOperation.get
            = some (w.testBit 5, construct (List.range 32))) ∧
      (∃ r, getByte (construct (List.range 32)) 1 3 = some r ∧
        pixel (construct (List.range 32)) (pixelOfBit (construct (List.range 32)) 1 3 5).1
          (pixelOfBit (construct (List.range 32)) 1 3 5).2 pixelOperation.get
          = some (r.testBit 5, construct (List.range 32))) ∧
      pixelOfBit (construct (List.range 32)) 1 3 5 = (2, 11) :=
  ⟨by decide,
    (refresh_carries_every_pixel (List.range 32) (by decide)).1.imp fun _ h =>
      h.imp fun _ h' =>
        ⟨h'.1, h'.2.1,
          (h'.2.2.2.2.2.1 3 2 5 (by decide) (by decide) (by decide)).imp fun _ hb =>
            hb.imp fun _ hw => ⟨hw.1, hw.2.1, hw.2.2.1, hw.2.2.2.1⟩⟩,
    (refresh_carries_every_pixel (List.range 32) (by decide)).2.1 1 3 5 (by decide) (by decide)
      (by decide),
    by decide⟩

end Max7221Array

/-! ## The power estimator -/

namespace Max7221Array

/-- C14. On a buffer of the declared size, whatever the `float` arithmetic is:
`getCurrentConsumption` returns the product of `N`, converted to `float`, and
`minCurrentPerLED`, and leaves the object as it was, where `N` is the number of
set bits in the whole buffer, which is the number of pixels `x < 16`, `y < 16`
for which `get` returns `true`. When the product of the converted 0 and the
constant is the converted 0 and the product of the converted 1 and the constant
is the constant, as for `float`: on a buffer of zeros the value is the converted
0, and with exactly one pixel set it is `minCurrentPerLED`. -/
theorem getCurrentConsumption_counts (F : Type) (toFloat : Nat → F) (mul : F → F → F)
    (minCurrentPerLED : F) (a : Max7221Array) (hs : Sized a)
    (h0 : mul (toFloat 0) minCurrentPerLED = toFloat 0)
    (h1 : mul (toFloat 1) minCurrentPerLED = minCurrentPerLED) :
    getCurrentConsumption toFloat mul minCurrentPerLED a
        = some (mul (toFloat (setBits a)) minCurrentPerLED, a) ∧
      setBits a = litPixels a ∧
      (a.displayData = List.replicate 32 0 →
        getCurrentConsumption toFloat mul minCurrentPerLED a = some (toFloat 0, a)) ∧
      (litPixels a = 1 →
        getCurrentConsumption toFloat mul minCurrentPerLED a = some (minCurrentPerLED, a)) := by
  have hval : getCurrentConsumption toFloat mul minCurrentPerLED a
      = some (mul (toFloat (setBits a)) minCurrentPerLED, a) := by
    unfold getCurrentConsumption
    rw [getCurrentConsumptionLoop_eq a hs]
    rfl
  have heq := setBits_eq_litPixels a hs
  refine ⟨hval, heq, ?_, ?_⟩
  · intro hz
    rw [hval, setBits_cleared a hz, h0]
  · intro hone
    rw [hval, heq, hone, h1]

theorem getCurrentConsumption_counts_witness :
    Sized (construct (List.range 32)) ∧
      getCurrentConsumption id (fun u v => u * v) 185 (construct (List.range 32))
        = some (setBits (construct (List.range 32)) * 185, construct (List.range 32)) ∧
      setBits (construct (List.range 32)) = litPixels (construct (List.range 32)) :=
  ⟨by decide,
    (getCurrentConsumption_counts Nat id (fun u v => u * v) 185 (construct (List.range 32))
      (by decide) (by decide) (by decide)).1,
    (getCurrentConsumption_counts Nat id (fun u v => u * v) 185 (construct (List.range 32))
      (by decide) (by decide) (by decide)).2.1⟩

end Max7221Array
